import Mathlib

/-!
Verification of datafusion-postgres against its specification.

Shallow embedding of the protocol-to-engine adaptation layer:
identifier quoting and parsing UDFs, session SET handling, the simple
and extended query handler control flow, permission checking, the
token-level SQL blacklist, the OID cache, the Decimal256 text encoder,
and the SQL rewrite pipeline.

Strings manipulated character by character in the Rust source are
modelled as `List Char`; Rust `u64` parsing and arithmetic are modelled
over `Nat` with explicit `% 2^64` where overflow can occur.
Character classes follow the ASCII fragment (the code is exercised on
ASCII SQL identifiers).
-/

namespace DfPg

/-! ## quote_ident / parse_ident
(datafusion-pg-catalog/src/pg_catalog/quote_ident_udf.rs) -/

/-- Rust `ident.replace('"', "\"\"")`: double every double quote. -/
def escQuotes : List Char → List Char
  | [] => []
  | c :: cs => if c = '"' then '"' :: '"' :: escQuotes cs else c :: escQuotes cs

/-- The fixed reserved-word list from `is_reserved_word`. -/
def reservedWords : List String :=
  ["ALL", "ANALYSE", "ANALYZE", "AND", "ANY", "ARRAY", "AS", "ASC",
   "ASYMMETRIC", "AUTHORIZATION", "BETWEEN", "BINARY", "BOTH", "CASE",
   "CAST", "CHECK", "COLLATE", "COLUMN", "CONCURRENTLY", "CONSTRAINT",
   "CREATE", "CROSS", "CURRENT_CATALOG", "CURRENT_DATE", "CURRENT_ROLE",
   "CURRENT_SCHEMA", "CURRENT_TIME", "CURRENT_TIMESTAMP", "CURRENT_USER",
   "DEFAULT", "DEFERRABLE", "DESC", "DISTINCT", "DO", "ELSE", "END",
   "EXCEPT", "FALSE", "FETCH", "FOR", "FOREIGN", "FROM", "FULL", "GRANT",
   "GROUP", "HAVING", "ILIKE", "IN", "INITIALLY", "INNER", "INTERSECT",
   "INTO", "IS", "ISNULL", "JOIN", "LATERAL", "LEADING", "LEFT", "LIKE",
   "LIMIT", "LOCALTIME", "LOCALTIMESTAMP", "NATURAL", "NOT", "NOTNULL",
   "NULL", "OFFSET", "ON", "ONLY", "OR", "ORDER", "OUTER", "OVERLAPS",
   "PLACING", "PRIMARY", "REFERENCES", "RETURNING", "RIGHT", "SELECT",
   "SESSION_USER", "SIMILAR", "SOME", "SYMMETRIC", "TABLE", "TABLESAMPLE",
   "THEN", "TO", "TRAILING", "TRUE", "UNION", "UNIQUE", "USER", "USING",
   "VARIADIC", "VERBOSE", "WHEN", "WHERE", "WINDOW", "WITH"]

/-- `is_reserved_word`: membership of the upper-cased word in the list. -/
def isReservedWord (w : List Char) : Bool :=
  reservedWords.contains (String.mk (w.map Char.toUpper))

/-- `needs_quoting`: empty, bad first char, bad later char, or reserved. -/
def needsQuoting : List Char → Bool
  | [] => true
  | first :: rest =>
    if ¬(first.isAlpha ∨ first = '_') then true
    else if rest.any (fun c => ¬(c.isAlphanum ∨ c = '_')) then true
    else isReservedWord (first :: rest)

/-- The scalar kernel of `create_quote_ident_udf`. -/
def quoteIdent (ident : List Char) : List Char :=
  if ident.head? = some '"' ∧ ident.getLast? = some '"' then
    escQuotes ident
  else if needsQuoting ident then
    '"' :: (escQuotes ident ++ ['"'])
  else
    ident

/-- The claim side of C7: already-quoted input has only its interior
double quotes doubled, keeping the two delimiter quotes intact. -/
def claimQuoteIdentQuoted (ident : List Char) : List Char :=
  '"' :: (escQuotes (ident.drop 1 |>.dropLast) ++ ['"'])

/-- `parse_ident_string` main loop, translated from the `while let` over
the peekable char iterator; returns `(parts, current, in_quotes)`, or
`none` for the strict-mode empty-part error. -/
def piLoop (strict : Bool) :
    List Char → Bool → List Char → List String →
    Option (List String × List Char × Bool)
  | [], inQ, cur, parts => some (parts, cur, inQ)
  | c :: rest, inQ, cur, parts =>
    if c = '"' then
      if inQ then
        match rest with
        | '"' :: rest2 => piLoop strict rest2 true (cur ++ ['"']) parts
        | r =>
          piLoop strict r false []
            (if cur.isEmpty then parts else parts ++ [String.mk cur])
      else piLoop strict rest true cur parts
    else if c = '.' ∧ inQ = false then
      if cur.isEmpty then
        if strict then none else piLoop strict rest false [] parts
      else
        piLoop strict rest false [] (parts ++ [String.mk cur])
    else piLoop strict rest inQ (cur ++ [c]) parts

/-- `parse_ident_string`: loop plus the final unterminated-quote,
trailing-part and empty-result handling. -/
def parseIdentString (ident : List Char) (strict : Bool) :
    Option (List String) :=
  if ident.isEmpty then none
  else
    match piLoop strict ident false [] [] with
    | none => none
    | some (parts, cur, inQ) =>
      if inQ then none
      else if ¬cur.isEmpty then some (parts ++ [String.mk cur])
      else if ident.getLast? = some '.' ∧ strict then none
      else if parts.isEmpty then none
      else some parts

/-! ### Lemmas about the parse_ident loop -/

theorem piLoop_other {c : Char} (strict : Bool) (rest : List Char)
    (inQ : Bool) (cur : List Char) (parts : List String)
    (hq : c ≠ '"') (hd : c ≠ '.' ∨ inQ = true) :
    piLoop strict (c :: rest) inQ cur parts =
      piLoop strict rest inQ (cur ++ [c]) parts := by
  rw [piLoop.eq_def]
  rcases hd with h | h <;> simp [hq, h]

theorem piLoop_openQuote (strict : Bool) (rest : List Char)
    (cur : List Char) (parts : List String) :
    piLoop strict ('"' :: rest) false cur parts =
      piLoop strict rest true cur parts := by
  rw [piLoop.eq_def]
  simp

theorem piLoop_closeQuote (strict : Bool) (rest : List Char)
    (cur : List Char) (parts : List String)
    (h : rest.head? ≠ some '"') :
    piLoop strict ('"' :: rest) true cur parts =
      piLoop strict rest false []
        (if cur.isEmpty then parts else parts ++ [String.mk cur]) := by
  rcases rest with _ | ⟨a, t⟩
  · rw [piLoop.eq_def]
    simp
  · have ha : a ≠ '"' := by
      intro hcontra; exact h (by simp [hcontra])
    rw [piLoop.eq_def]
    simp only [if_pos rfl, if_pos]
    split
    · simp_all
    · rfl

/-- Scanning a run of characters that are neither quotes nor dots just
accumulates them onto `current`. -/
theorem piLoop_plainRun (strict : Bool) (s : List Char)
    (hs : ∀ c ∈ s, c ≠ '"' ∧ c ≠ '.') :
    ∀ rest cur parts,
      piLoop strict (s ++ rest) false cur parts =
        piLoop strict rest false (cur ++ s) parts := by
  induction s with
  | nil => intro rest cur parts; simp
  | cons c s ih =>
    intro rest cur parts
    have hc := hs c (List.mem_cons_self c s)
    rw [List.cons_append, piLoop_other strict _ _ _ _ hc.1 (Or.inl hc.2),
      ih (fun x hx => hs x (List.mem_cons_of_mem c hx))]
    simp

/-- Scanning the quote-doubled form of `s` inside quotes, followed by a
closing quote not itself followed by a quote, decodes `s` and closes the
quoted part. -/
theorem piLoop_escRun (strict : Bool) (s : List Char)
    (rest : List Char) (h : rest.head? ≠ some '"') :
    ∀ cur parts,
      piLoop strict (escQuotes s ++ '"' :: rest) true cur parts =
        piLoop strict rest false []
          (if (cur ++ s).isEmpty then parts
           else parts ++ [String.mk (cur ++ s)]) := by
  induction s with
  | nil =>
    intro cur parts
    simpa using piLoop_closeQuote strict rest cur parts h
  | cons c s ih =>
    intro cur parts
    by_cases hc : c = '"'
    · subst hc
      show piLoop strict ('"' :: '"' :: (escQuotes s ++ '"' :: rest))
        true cur parts = _
      rw [piLoop.eq_def]
      simp only [if_pos rfl, List.cons_append]
      rw [ih (cur ++ ['"']) parts]
      simp
    · rw [show escQuotes (c :: s) = c :: escQuotes s by
        simp [escQuotes, hc]]
      rw [List.cons_append,
        piLoop_other strict _ _ _ _ hc (Or.inr rfl), ih (cur ++ [c]) parts]
      simp

/-! ### C7: quote_ident -/

/-- Spec side for an identifier that needs no quoting: starts with a
letter or underscore, contains only letters, digits and underscores,
and is not a reserved word. -/
def plainIdent (ident : List Char) : Bool :=
  (match ident.head? with
   | some c => c.isAlpha || c = '_'
   | none => false) &&
  ident.all (fun c => c.isAlphanum || c = '_') &&
  !isReservedWord ident

theorem needsQuoting_eq_not_plainIdent (ident : List Char) :
    needsQuoting ident = !plainIdent ident := by
  rcases ident with _ | ⟨c, cs⟩
  · rfl
  by_cases hca : c.isAlpha = true ∨ c = '_'
  · have hc1 : (c.isAlpha || decide (c = '_')) = true := by
      rcases hca with h | h <;> simp [h]
    have hc2 : (c.isAlphanum || decide (c = '_')) = true := by
      rcases hca with h | h
      · simp [Char.isAlphanum, h]
      · simp [h]
    by_cases hrest : (cs.any fun x => decide ¬(x.isAlphanum = true ∨ x = '_')) = true
    · have hall : (cs.all fun x => x.isAlphanum || decide (x = '_')) = false := by
        simp only [List.any_eq_true, decide_eq_true_eq] at hrest
        obtain ⟨x, hx, hxbad⟩ := hrest
        rw [Bool.eq_false_iff]
        intro hAll
        rw [List.all_eq_true] at hAll
        have := hAll x hx
        apply hxbad
        simpa using this
      unfold needsQuoting plainIdent
      simp only [List.head?_cons, List.all_cons]
      rw [if_neg (not_not_intro hca), if_pos hrest]
      simp [hall]
    · have hall : (cs.all fun x => x.isAlphanum || decide (x = '_')) = true := by
        rw [List.all_eq_true]
        intro x hx
        by_contra hxbad
        apply hrest
        rw [List.any_eq_true]
        refine ⟨x, hx, ?_⟩
        simpa using hxbad
      unfold needsQuoting plainIdent
      simp only [List.head?_cons, List.all_cons]
      rw [if_neg (not_not_intro hca), if_neg hrest]
      simp [hc1, hc2, hall]
  · have hc1 : (c.isAlpha || decide (c = '_')) = false := by
      push_neg at hca
      simp [hca.1, hca.2]
    unfold needsQuoting plainIdent
    simp only [List.head?_cons, List.all_cons]
    rw [if_pos hca]
    simp [hc1]

/-- Claim C7 counterexample: on the already-quoted input `"a"` the code
doubles every double quote, delimiters included, producing `""a""`,
not the claimed interior-only doubling (which would leave `"a"`
unchanged); moreover the reserved-word list has 99 entries, not 105. -/
theorem quoteIdent_c7_counterexample :
    quoteIdent ('"' :: 'a' :: ['"']) = "\"\"a\"\"".data ∧
    quoteIdent ('"' :: 'a' :: ['"']) ≠
      claimQuoteIdentQuoted ('"' :: 'a' :: ['"']) ∧
    reservedWords.length = 99 ∧ reservedWords.length ≠ 105 := by
  refine ⟨by decide, by decide, by decide, by decide⟩

/-- Claim C7 (amended): `quote_ident` returns the input with every
double quote doubled (delimiters included) when the input starts and
ends with a double quote; the input unchanged when it starts with a
letter or underscore, contains only letters, digits and underscores,
and is not one of the fixed list of 99 reserved words; otherwise the
input wrapped in double quotes with quotes doubled. The three spec
examples hold. -/
theorem quoteIdent_c7_amended (ident : List Char) :
    (quoteIdent ident =
      if ident.head? = some '"' ∧ ident.getLast? = some '"' then
        escQuotes ident
      else if plainIdent ident then ident
      else '"' :: (escQuotes ident ++ ['"'])) ∧
    quoteIdent "select".data = "\"select\"".data ∧
    quoteIdent "a b".data = "\"a b\"".data ∧
    quoteIdent "ab".data = "ab".data := by
  refine ⟨?_, by decide, by decide, by decide⟩
  unfold quoteIdent
  by_cases hq : ident.head? = some '"' ∧ ident.getLast? = some '"'
  · simp [hq]
  · simp only [if_neg hq, needsQuoting_eq_not_plainIdent]
    by_cases hp : plainIdent ident <;> simp [hp]

/-! ### C8: parse_ident ∘ quote_ident -/

theorem plainIdent_chars {ident : List Char} (h : plainIdent ident = true) :
    ∀ c ∈ ident, c ≠ '"' ∧ c ≠ '.' := by
  intro c hc
  simp only [plainIdent, Bool.and_eq_true, List.all_eq_true] at h
  have := h.1.2 c hc
  constructor
  · rintro rfl; simp_all [Char.isAlphanum, Char.isAlpha, Char.isDigit,
      Char.isUpper, Char.isLower]
  · rintro rfl; simp_all [Char.isAlphanum, Char.isAlpha, Char.isDigit,
      Char.isUpper, Char.isLower]

/-- After scanning `quote_ident i` followed by a dot, the loop state is:
one finished part `i`, empty current, outside quotes. -/
theorem piLoop_quotedIdentDot (i : List Char) (hne : i ≠ [])
    (hq : ¬(i.head? = some '"' ∧ i.getLast? = some '"'))
    (rest : List Char) (parts : List String) :
    piLoop false (quoteIdent i ++ '.' :: rest) false [] parts =
      piLoop false rest false [] (parts ++ [String.mk i]) := by
  have hquote := (quoteIdent_c7_amended i).1
  rw [if_neg hq] at hquote
  by_cases hp : plainIdent i
  · rw [hquote, if_pos hp, piLoop_plainRun false i (plainIdent_chars hp)]
    rw [piLoop.eq_def]
    simp [List.isEmpty_iff, hne]
  · rw [hquote, if_neg hp, List.cons_append, piLoop_openQuote,
      List.append_assoc]
    rw [show ['"'] ++ '.' :: rest = '"' :: '.' :: rest by simp]
    rw [piLoop_escRun false i ('.' :: rest) (by simp) [] parts]
    rw [piLoop.eq_def]
    simp [List.isEmpty_iff, hne]

/-- After scanning `quote_ident j` at the end of input, the loop ends
with either `j` as unfinished current (plain case) or `j` pushed
(quoted case); both finalize to `parts ++ [j]`. -/
theorem piLoop_quotedIdentEnd (j : List Char) (hne : j ≠ [])
    (hq : ¬(j.head? = some '"' ∧ j.getLast? = some '"'))
    (parts : List String) :
    (piLoop false (quoteIdent j) false [] parts =
        some (parts, j, false) ∧ plainIdent j = true) ∨
      (piLoop false (quoteIdent j) false [] parts =
        some (parts ++ [String.mk j], [], false) ∧ plainIdent j = false) := by
  have hquote := (quoteIdent_c7_amended j).1
  rw [if_neg hq] at hquote
  by_cases hp : plainIdent j
  · left
    refine ⟨?_, hp⟩
    rw [hquote, if_pos hp]
    have := piLoop_plainRun false j (plainIdent_chars hp) [] [] parts
    rw [List.append_nil] at this
    rw [this, piLoop.eq_def]
    simp
  · right
    refine ⟨?_, by simpa using hp⟩
    rw [hquote, if_neg hp, piLoop_openQuote]
    rw [show escQuotes j ++ ['"'] = escQuotes j ++ '"' :: ([] : List Char)
      by simp]
    rw [piLoop_escRun false j [] (by simp) [] parts]
    rw [piLoop.eq_def]
    simp [List.isEmpty_iff, hne]

/-- Claim C8 counterexample: for the empty identifier `i = ""` and
`j = "b"`, `parse_ident(quote_ident(i) || '.' || quote_ident(j))` in
non-strict mode returns `["b"]`, not `["", "b"]`. -/
theorem parseIdent_quoteIdent_c8_counterexample :
    parseIdentString (quoteIdent [] ++ '.' :: quoteIdent ['b']) false =
      some ["b"] ∧
    parseIdentString (quoteIdent [] ++ '.' :: quoteIdent ['b']) false ≠
      some ["", "b"] := by
  refine ⟨by decide, by decide⟩

/-- Claim C8 (amended): for every pair of nonempty identifiers `i`, `j`
neither of which both starts and ends with a double quote,
`parse_ident(quote_ident(i) || '.' || quote_ident(j))` in non-strict
mode returns the two-element list `[i, j]`. -/
theorem parseIdent_quoteIdent_c8_amended (i j : List Char)
    (hi : i ≠ []) (hj : j ≠ [])
    (hqi : ¬(i.head? = some '"' ∧ i.getLast? = some '"'))
    (hqj : ¬(j.head? = some '"' ∧ j.getLast? = some '"')) :
    parseIdentString (quoteIdent i ++ '.' :: quoteIdent j) false =
      some [String.mk i, String.mk j] := by
  have hne : (quoteIdent i ++ '.' :: quoteIdent j).isEmpty = false := by
    rcases quoteIdent i with _ | _ <;> simp
  unfold parseIdentString
  rw [hne]
  simp only [Bool.false_eq_true, if_false]
  rw [piLoop_quotedIdentDot i hi hqi (quoteIdent j) []]
  simp only [List.nil_append]
  rcases piLoop_quotedIdentEnd j hj hqj [String.mk i] with ⟨h, _⟩ | ⟨h, _⟩
  · rw [h]
    simp [List.isEmpty_iff, hj]
  · rw [h]
    simp

/-- Witness for the amended C8 at `i = "a"`, `j = "b"`. -/
theorem parseIdent_quoteIdent_c8_witness :
    parseIdentString (quoteIdent ['a'] ++ '.' :: quoteIdent ['b']) false =
      some [String.mk ['a'], String.mk ['b']] :=
  parseIdent_quoteIdent_c8_amended ['a'] ['b'] (by decide) (by decide)
    (by decide) (by decide)

/-! ## Auth and permissions (datafusion-postgres/src/auth.rs) -/

/-- `Permission` enum. -/
inductive Permission where
  | select | insert | update | delete | create | drop | alter
  | index | references | trigger | execute | usage | connect
  | temporary | allP
deriving DecidableEq, Repr

/-- `ResourceType` enum. -/
inductive ResourceType where
  | table (name : String)
  | schema (name : String)
  | database (name : String)
  | function (name : String)
  | sequence (name : String)
  | allR
deriving DecidableEq, Repr

/-- `Grant` (the fields the permission check reads). -/
structure Grant where
  permission : Permission
  resource : ResourceType
deriving DecidableEq, Repr

/-- `Role` (the fields the permission check reads). -/
structure Role where
  isSuperuser : Bool
  grants : List Grant
  inheritedRoles : List String
deriving DecidableEq, Repr

/-- `User` (the fields the permission check reads). -/
structure User where
  roles : List String
  isSuperuser : Bool
deriving DecidableEq, Repr

/-- The two `RwLock`-guarded maps of `AuthManager`, as assoc lists. -/
structure AuthEnv where
  users : List (String × User)
  roles : List (String × Role)
deriving DecidableEq, Repr

def AuthEnv.getUser (env : AuthEnv) (name : String) : Option User :=
  (env.users.find? (fun p => p.1 = name)).map Prod.snd

def AuthEnv.getRole (env : AuthEnv) (name : String) : Option Role :=
  (env.roles.find? (fun p => p.1 = name)).map Prod.snd

/-- `permission_matches`: equality, or `All` matches everything. -/
def permissionMatches (grant requested : Permission) : Bool :=
  grant = requested || grant = Permission.allP

/-- `resource_matches`: exact match, `All` matches everything, and
`Schema(s)` matches `Table(t)` when `t` starts with `s || "."`. -/
def resourceMatches (grant requested : ResourceType) : Bool :=
  if grant = requested then true
  else
    match grant, requested with
    | ResourceType.allR, _ => true
    | ResourceType.schema s, ResourceType.table t =>
      (s ++ ".").data.isPrefixOf t.data
    | _, _ => false

/-- Whether a role holds a matching direct grant. -/
def roleGrantMatches (role : Role) (p : Permission) (r : ResourceType) :
    Bool :=
  role.grants.any fun g =>
    permissionMatches g.permission p && resourceMatches g.resource r

/-- `check_role_permission`: the boxed recursive helper.  The Rust
recursion has no cycle or depth guard; `fuel` bounds the recursion
depth of the shallow embedding. -/
def checkRolePermission (env : AuthEnv) :
    Nat → String → Permission → ResourceType → Bool
  | 0, _, _, _ => false
  | fuel + 1, roleName, p, r =>
    match env.getRole roleName with
    | none => false
    | some role =>
      role.isSuperuser || roleGrantMatches role p r ||
        role.inheritedRoles.any fun ir =>
          checkRolePermission env fuel ir p r

/-- `AuthManager::check_permission`. -/
def checkPermission (env : AuthEnv) (fuel : Nat) (username : String)
    (p : Permission) (r : ResourceType) : Bool :=
  match env.getUser username with
  | none => false
  | some user =>
    user.isSuperuser ||
      user.roles.any fun rn =>
        match env.getRole rn with
        | none => false
        | some role =>
          role.isSuperuser || roleGrantMatches role p r ||
            role.inheritedRoles.any fun ir =>
              checkRolePermission env fuel ir p r

/-- Role names reachable from a starting set by recursively following
`inherited_roles` (the claim wording). -/
inductive ReachesFrom (env : AuthEnv) (start : List String) :
    String → Prop
  | base {rn} : rn ∈ start → ReachesFrom env start rn
  | step {rn rn' role} : ReachesFrom env start rn →
      env.getRole rn = some role → rn' ∈ role.inheritedRoles →
      ReachesFrom env start rn'

/-- Claim C2's acceptance condition, as literally stated: the user is a
superuser, or some reachable role holds a matching grant.  (It omits
acceptance through a superuser role.) -/
def claimAccepts (env : AuthEnv) (username : String) (p : Permission)
    (r : ResourceType) : Prop :=
  ∃ user, env.getUser username = some user ∧
    (user.isSuperuser = true ∨
      ∃ rn role, ReachesFrom env user.roles rn ∧
        env.getRole rn = some role ∧ roleGrantMatches role p r = true)

/-- Amended acceptance condition: additionally a reachable role that is
itself a superuser role grants access. -/
def specAccepts (env : AuthEnv) (username : String) (p : Permission)
    (r : ResourceType) : Prop :=
  ∃ user, env.getUser username = some user ∧
    (user.isSuperuser = true ∨
      ∃ rn role, ReachesFrom env user.roles rn ∧
        env.getRole rn = some role ∧
        (role.isSuperuser = true ∨ roleGrantMatches role p r = true))

/-- Inheritance paths that reach an accepting role, with the recursion
at the front, mirroring `check_role_permission`. -/
inductive RolePath (env : AuthEnv) (p : Permission) (r : ResourceType) :
    String → Prop
  | here {rn role} : env.getRole rn = some role →
      (role.isSuperuser || roleGrantMatches role p r) = true →
      RolePath env p r rn
  | there {rn role ir} : env.getRole rn = some role →
      ir ∈ role.inheritedRoles → RolePath env p r ir →
      RolePath env p r rn

theorem rolePath_iff_checkRole (env : AuthEnv) (p : Permission)
    (r : ResourceType) (a : String) :
    RolePath env p r a ↔
      ∃ f, checkRolePermission env f a p r = true := by
  constructor
  · intro h
    induction h with
    | here hrole hacc =>
      refine ⟨1, ?_⟩
      rename_i rn role
      simp [checkRolePermission, hrole]
      simpa using hacc
    | there hrole hmem _ ih =>
      obtain ⟨f, hf⟩ := ih
      rename_i rn role ir _
      refine ⟨f + 1, ?_⟩
      simp only [checkRolePermission, hrole, Bool.or_eq_true,
        List.any_eq_true]
      exact Or.inr ⟨ir, hmem, hf⟩
  · rintro ⟨f, hf⟩
    induction f generalizing a with
    | zero => simp [checkRolePermission] at hf
    | succ f ih =>
      rw [checkRolePermission] at hf
      rcases hrole : env.getRole a with _ | role
      · rw [hrole] at hf; simp at hf
      · rw [hrole] at hf
        simp only [Bool.or_eq_true, List.any_eq_true] at hf
        rcases hf with (hs | hg) | ⟨ir, hmem, hir⟩
        · exact RolePath.here hrole (by simp [hs])
        · exact RolePath.here hrole (by simp [hg])
        · exact RolePath.there hrole hmem (ih ir hir)

theorem reachesFrom_singleton (env : AuthEnv) (start : List String)
    (rn : String) :
    ReachesFrom env start rn ↔
      ∃ a ∈ start, ReachesFrom env [a] rn := by
  constructor
  · intro h
    induction h with
    | base hmem =>
      exact ⟨_, hmem, ReachesFrom.base (List.mem_singleton.2 rfl)⟩
    | step _ hrole hmem ih =>
      obtain ⟨a, ha, hr⟩ := ih
      exact ⟨a, ha, ReachesFrom.step hr hrole hmem⟩
  · rintro ⟨a, ha, hr⟩
    induction hr with
    | base hmem =>
      rw [List.mem_singleton] at hmem
      subst hmem
      exact ReachesFrom.base ha
    | step _ hrole hmem ih =>
      exact ReachesFrom.step ih hrole hmem

theorem reachesFrom_trans (env : AuthEnv) {a ir x : String}
    {role : Role} (hrole : env.getRole a = some role)
    (hmem : ir ∈ role.inheritedRoles)
    (h : ReachesFrom env [ir] x) : ReachesFrom env [a] x := by
  induction h with
  | base hm =>
    rw [List.mem_singleton] at hm
    subst hm
    exact ReachesFrom.step (ReachesFrom.base (List.mem_singleton.2 rfl))
      hrole hmem
  | step _ hrole' hmem' ih =>
    exact ReachesFrom.step ih hrole' hmem'

theorem rolePath_lift (env : AuthEnv) (p : Permission) (r : ResourceType)
    {a rn : String} (hr : ReachesFrom env [a] rn)
    (hp : RolePath env p r rn) : RolePath env p r a := by
  induction hr with
  | base hm =>
    rw [List.mem_singleton] at hm
    subst hm
    exact hp
  | step _ hrole hmem ih =>
    exact ih (RolePath.there hrole hmem hp)

theorem rolePath_iff_reaches (env : AuthEnv) (p : Permission)
    (r : ResourceType) (a : String) :
    RolePath env p r a ↔
      ∃ rn role, ReachesFrom env [a] rn ∧ env.getRole rn = some role ∧
        (role.isSuperuser = true ∨ roleGrantMatches role p r = true) := by
  constructor
  · intro h
    induction h with
    | here hrole hacc =>
      exact ⟨_, _, ReachesFrom.base (List.mem_singleton.2 rfl), hrole,
        by simpa [Bool.or_eq_true] using hacc⟩
    | there hrole hmem _ ih =>
      obtain ⟨rn', role', hr, hrole', hacc⟩ := ih
      exact ⟨rn', role', reachesFrom_trans env hrole hmem hr, hrole', hacc⟩
  · rintro ⟨rn, role, hr, hrole, hacc⟩
    exact rolePath_lift env p r hr
      (RolePath.here hrole (by simpa [Bool.or_eq_true] using hacc))

theorem checkPermission_iff_specAccepts (env : AuthEnv) (u : String)
    (p : Permission) (r : ResourceType) :
    (∃ f, checkPermission env f u p r = true) ↔ specAccepts env u p r := by
  unfold checkPermission specAccepts
  rcases hu : env.getUser u with _ | user
  · constructor
    · rintro ⟨f, hf⟩; simp at hf
    · rintro ⟨user, huser, _⟩; simp at huser
  · have hiff : (∃ f, (user.roles.any fun rn =>
        match env.getRole rn with
        | none => false
        | some role =>
          role.isSuperuser || roleGrantMatches role p r ||
            role.inheritedRoles.any fun ir =>
              checkRolePermission env f ir p r) = true) ↔
        ∃ rn ∈ user.roles, RolePath env p r rn := by
      constructor
      · rintro ⟨f, hany⟩
        rw [List.any_eq_true] at hany
        obtain ⟨rn, hmem, hrn⟩ := hany
        rcases hrole : env.getRole rn with _ | role
        · rw [hrole] at hrn; simp at hrn
        · rw [hrole] at hrn
          simp only [Bool.or_eq_true, List.any_eq_true] at hrn
          rcases hrn with (hs | hg) | ⟨ir, hmemir, hir⟩
          · exact ⟨rn, hmem, RolePath.here hrole (by simp [hs])⟩
          · exact ⟨rn, hmem, RolePath.here hrole (by simp [hg])⟩
          · exact ⟨rn, hmem, RolePath.there hrole hmemir
              ((rolePath_iff_checkRole env p r ir).2 ⟨f, hir⟩)⟩
      · rintro ⟨rn, hmem, hpath⟩
        cases hpath with
        | here hrole hacc =>
          refine ⟨0, ?_⟩
          rw [List.any_eq_true]
          refine ⟨rn, hmem, ?_⟩
          rw [hrole]
          simp only [Bool.or_eq_true] at hacc ⊢
          tauto
        | there hrole hmemir hpathir =>
          obtain ⟨f, hf⟩ :=
            (rolePath_iff_checkRole env p r _).1 hpathir
          refine ⟨f, ?_⟩
          rw [List.any_eq_true]
          refine ⟨rn, hmem, ?_⟩
          rw [hrole]
          simp only [Bool.or_eq_true, List.any_eq_true]
          exact Or.inr ⟨_, hmemir, hf⟩
    constructor
    · rintro ⟨f, hf⟩
      simp only [Bool.or_eq_true] at hf
      rcases hf with hs | hany
      · exact ⟨user, rfl, Or.inl hs⟩
      · refine ⟨user, rfl, Or.inr ?_⟩
        obtain ⟨rn, hmem, hpath⟩ := hiff.1 ⟨f, hany⟩
        obtain ⟨rn', role', hr, hrole', hacc⟩ :=
          (rolePath_iff_reaches env p r rn).1 hpath
        exact ⟨rn', role',
          (reachesFrom_singleton env user.roles rn').2 ⟨rn, hmem, hr⟩,
          hrole', hacc⟩
    · rintro ⟨user', huser', hcase⟩
      injection huser' with huser'
      subst huser'
      rcases hcase with hs | ⟨rn, role, hr, hrole, hacc⟩
      · exact ⟨0, by simp [hs]⟩
      · obtain ⟨a, ha, hra⟩ :=
          (reachesFrom_singleton env user.roles rn).1 hr
        have hpath : RolePath env p r a :=
          (rolePath_iff_reaches env p r a).2 ⟨rn, role, hra, hrole, hacc⟩
        obtain ⟨f, hf⟩ := hiff.2 ⟨a, ha, hpath⟩
        exact ⟨f, by simp [hf]⟩

/-! ## Session service (datafusion-postgres/src/handlers.rs) -/

/-- pgwire `TransactionStatus`: `Idle` / `Transaction` / `Error`. -/
inductive TxnStatus where
  | idle | inTxn | failed
deriving DecidableEq, Repr

/-- Per-connection state the handlers read and write: transaction
status, `statement_timeout_ms` metadata, timezone, and the `user`
metadata entry. -/
structure Session where
  status : TxnStatus
  timeoutMs : Option Nat
  timezone : String
  user : Option String
deriving DecidableEq, Repr

/-- The handler responses the model distinguishes. -/
inductive Response where
  | executionTag (tag : String)
  | transactionStart (tag : String)
  | transactionEnd (tag : String)
  | queryRows (col : String) (value : String)
  | queryResult
  | insertTag (rows : Nat)
deriving DecidableEq, Repr

/-- An `ErrorResponse`: severity and SQLSTATE. -/
structure PgError where
  severity : String
  sqlstate : String
deriving DecidableEq, Repr

def errInFailedTxn : PgError := ⟨"ERROR", "25P01"⟩

def errInsufficientPrivilege : PgError := ⟨"ERROR", "42501"⟩

def errSyntax : PgError := ⟨"ERROR", "42601"⟩

/-- `PgWireError::ApiError` (no SQLSTATE is set in the source). -/
def errApi : PgError := ⟨"ERROR", "APIERR"⟩

/-- `statements.remove(0)` on an empty vec panics. -/
def errPanic : PgError := ⟨"PANIC", "PANIC"⟩

/-- Rust `str::starts_with`. -/
def strStartsWith (s p : String) : Bool := p.data.isPrefixOf s.data

/-- Rust `str::trim_matches` with a char-set closure. -/
def trimMatchesSet (p : Char → Bool) (s : List Char) : List Char :=
  ((s.dropWhile p).reverse.dropWhile p).reverse

/-- Rust `str::to_lowercase` (ASCII fragment). -/
def toLowerStr (s : String) : String := String.mk (s.data.map Char.toLower)

/-- Rust `str::trim`. -/
def trimStr (s : String) : String :=
  String.mk (trimMatchesSet Char.isWhitespace s.data)

/-- `query.to_lowercase().trim()`. -/
def lowerTrim (s : String) : String := trimStr (toLowerStr s)

def splitWsAux : List Char → List Char → List String
  | [], cur => [String.mk cur.reverse]
  | c :: rest, cur =>
    if c.isWhitespace then String.mk cur.reverse :: splitWsAux rest []
    else splitWsAux rest (c :: cur)

/-- Rust `str::split_whitespace`. -/
def splitWhitespace (s : String) : List String :=
  (splitWsAux s.data []).filter (fun w => w ≠ "")

/-- `Vec::join` / iterator `join` on strings. -/
def intercalateStr (sep : String) (xs : List String) : String :=
  String.mk (List.intercalate sep.data (xs.map String.data))

/-- Rust `str::trim_matches(c)`. -/
def trimMatchesChar (c : Char) (s : List Char) : List Char :=
  trimMatchesSet (· = c) s

/-- `val_str.trim_matches('"').trim_matches('\'')`. -/
def stripQuotes (v : String) : List Char :=
  trimMatchesChar '\'' (trimMatchesChar '"' v.data)

/-- Digit-string to value part of `u64` parsing: one or more ASCII
digits, value below `2^64`. -/
def parseU64Digits (digits : List Char) : Option Nat :=
  if digits.isEmpty then none
  else if digits.all Char.isDigit then
    if digits.foldl (fun acc c => acc * 10 + (c.toNat - 48)) 0 < 2 ^ 64 then
      some (digits.foldl (fun acc c => acc * 10 + (c.toNat - 48)) 0)
    else none
  else none

/-- Rust `str::parse::<u64>()`: optional leading plus sign, one or more
ASCII digits, value below `2^64`. -/
def parseU64 (s : List Char) : Option Nat :=
  parseU64Digits (if s.head? = some '+' then s.tail else s)

/-- Rust `str::trim_end_matches(pat)`: strip the suffix repeatedly. -/
def trimEndMatchesAux (pat : List Char) : Nat → List Char → List Char
  | 0, s => s
  | fuel + 1, s =>
    if pat.isSuffixOf s ∧ pat ≠ [] then
      trimEndMatchesAux pat fuel (s.take (s.length - pat.length))
    else s

def trimEndMatches (pat s : List Char) : List Char :=
  trimEndMatchesAux pat s.length s

/-- The suffix-dispatched millisecond computation inside
`handle_set_statement_structured` (`ends_with` checks in source
order; `u64` arithmetic wraps). -/
def rustTimeoutMs (t : List Char) : Option Nat :=
  if "ms".data.isSuffixOf t then parseU64 (trimEndMatches "ms".data t)
  else if "s".data.isSuffixOf t then
    (parseU64 (trimEndMatches "s".data t)).map (fun n => n * 1000 % 2 ^ 64)
  else if "min".data.isSuffixOf t then
    (parseU64 (trimEndMatches "min".data t)).map
      (fun n => n * 60 * 1000 % 2 ^ 64)
  else parseU64 t

/-- The `statement_timeout` value computation of
`handle_set_statement_structured`: `0` or empty clears the timeout;
otherwise parse with optional `ms`/`s`/`min` suffix; only a positive
parse result is kept, anything else clears the timeout. -/
def rustStatementTimeout (valStr : String) : Option Nat :=
  if stripQuotes valStr = "0".data ∨ (stripQuotes valStr).isEmpty then none
  else
    match rustTimeoutMs (stripQuotes valStr) with
    | some ms => if ms > 0 then some ms else none
    | none => none

/-- `handle_set_statement_structured`: returns the handler result, the
updated session, and any SQL submitted to the engine (unknown SET
variables are passed through best-effort). -/
def handleSetStructured (sess : Session) (vars : List String)
    (vals : List String) :
    Except PgError (Response × Session) × List String :=
  let varName := (vars.head?).getD ""
  let vn := toLowerStr varName
  if vn = "time_zone" ∨ vn = "timezone" then
    match vals.head? with
    | some v =>
      (Except.ok (Response.executionTag "SET",
        { sess with timezone := String.mk (stripQuotes v) }), [])
    | none => (Except.error errSyntax, [])
  else if vn = "statement_timeout" then
    match vals.head? with
    | some v =>
      (Except.ok (Response.executionTag "SET",
        { sess with timeoutMs := rustStatementTimeout v }), [])
    | none => (Except.error errSyntax, [])
  else
    (Except.ok (Response.executionTag "SET", sess),
      ["SET " ++ varName ++ " = " ++ intercalateStr ", " vals])

/-- `handle_show_statement_structured`. -/
def handleShowStructured (catalogs : List String) (sess : Session)
    (parts : List String) : Except PgError Response :=
  let varName := intercalateStr "_" parts
  let vn := toLowerStr varName
  if vn = "time_zone" ∨ vn = "timezone" then
    Except.ok (Response.queryRows "TimeZone" sess.timezone)
  else if vn = "server_version" then
    Except.ok (Response.queryRows "server_version" "15.0 (DataFusion)")
  else if vn = "transaction_isolation" then
    Except.ok (Response.queryRows "transaction_isolation"
      "read uncommitted")
  else if vn = "search_path" then
    Except.ok (Response.queryRows "search_path" "public")
  else if vn = "statement_timeout" then
    Except.ok (Response.queryRows "statement_timeout"
      (match sess.timeoutMs with
       | some ms => toString ms ++ "ms"
       | none => "0"))
  else
    Except.ok (Response.queryRows varName
      (intercalateStr ", " catalogs))

/-- The bare transaction verbs of
`try_respond_transaction_statements`. -/
inductive TxnKind where
  | tkBegin | tkCommit | tkRollback
deriving DecidableEq, Repr

def txnVerbOf (ql : String) : Option TxnKind :=
  let t := trimStr ql
  if t = "begin" ∨ t = "begin transaction" ∨ t = "begin work" ∨
      t = "start transaction" then some TxnKind.tkBegin
  else if t = "commit" ∨ t = "commit transaction" ∨ t = "commit work" ∨
      t = "end" ∨ t = "end transaction" then some TxnKind.tkCommit
  else if t = "rollback" ∨ t = "rollback transaction" ∨
      t = "rollback work" ∨ t = "abort" then some TxnKind.tkRollback
  else none

/-- `try_respond_transaction_statements` result per current status. -/
def respondTxn (status : TxnStatus) (k : TxnKind) :
    Except PgError Response :=
  match k with
  | TxnKind.tkBegin =>
    match status with
    | TxnStatus.idle => Except.ok (Response.transactionStart "BEGIN")
    | TxnStatus.inTxn => Except.ok (Response.executionTag "BEGIN")
    | TxnStatus.failed => Except.error errInFailedTxn
  | TxnKind.tkCommit =>
    match status with
    | TxnStatus.idle | TxnStatus.inTxn =>
      Except.ok (Response.transactionEnd "COMMIT")
    | TxnStatus.failed => Except.ok (Response.transactionEnd "ROLLBACK")
  | TxnKind.tkRollback => Except.ok (Response.transactionEnd "ROLLBACK")

/-- Modelled from the spec: the transaction-status update performed by
pgwire (an external crate, outside this repository) after each handler
result — `TransactionStart` enters a block, `TransactionEnd` leaves it,
an error inside a block fails it, and a failed block stays failed
(spec section 4.6). -/
def nextStatus (old : TxnStatus) (r : Except PgError Response) :
    TxnStatus :=
  match r with
  | Except.error _ =>
    match old with
    | TxnStatus.idle => TxnStatus.idle
    | TxnStatus.inTxn => TxnStatus.failed
    | TxnStatus.failed => TxnStatus.failed
  | Except.ok (Response.transactionStart _) => TxnStatus.inTxn
  | Except.ok (Response.transactionEnd _) => TxnStatus.idle
  | Except.ok _ => old

/-! ### Permission classification (check_query_permission) -/

def trimParens (w : String) : String :=
  String.mk (trimMatchesSet (fun c => c = '(' ∨ c = ')' ∨ c = ';') w.data)

/-- `extract_table_from_query`: first word after `from`/`into`/`table`
that has a successor. -/
def extractTableGo : List String → ResourceType
  | w :: next :: rest =>
    if toLowerStr w = "from" ∨ toLowerStr w = "into" ∨
        toLowerStr w = "table" then
      ResourceType.table (trimParens next)
    else extractTableGo (next :: rest)
  | _ => ResourceType.allR

def extractTable (query : String) : ResourceType :=
  extractTableGo (splitWhitespace query)

/-- The first-keyword classification of `check_query_permission`. -/
def classifyQuery (query : String) : Option (Permission × ResourceType) :=
  if strStartsWith (lowerTrim query) "select" then
    some (Permission.select, extractTable query)
  else if strStartsWith (lowerTrim query) "insert" then
    some (Permission.insert, extractTable query)
  else if strStartsWith (lowerTrim query) "update" then
    some (Permission.update, extractTable query)
  else if strStartsWith (lowerTrim query) "delete" then
    some (Permission.delete, extractTable query)
  else if strStartsWith (lowerTrim query) "create table" = true ∨
      strStartsWith (lowerTrim query) "create view" = true then
    some (Permission.create, ResourceType.allR)
  else if strStartsWith (lowerTrim query) "drop" then
    some (Permission.drop, extractTable query)
  else if strStartsWith (lowerTrim query) "alter" then
    some (Permission.alter, extractTable query)
  else none

/-- `check_query_permission`. -/
def checkQueryPermission (env : AuthEnv) (fuel : Nat) (sess : Session)
    (query : String) : Except PgError Unit :=
  let username := sess.user.getD "anonymous"
  match classifyQuery query with
  | none => Except.ok ()
  | some (p, res) =>
    if checkPermission env fuel username p res then Except.ok ()
    else Except.error errInsufficientPrivilege

/-! ### The query handlers -/

/-- The statement shapes `do_query` distinguishes after parsing. -/
inductive Ast where
  | setVariable (vars : List String) (vals : List String)
  | showVariable (parts : List String)
  | other (rendered : String)
deriving DecidableEq, Repr

/-- Engine execution result (the `count` column for INSERT). -/
structure EngineOut where
  insertCount : Nat
deriving DecidableEq, Repr

/-- Static context of one handler call: the rewrite pipeline rendered
as string-to-string, the engine, the auth state, the recursion fuel for
the permission check, and the catalog names. -/
structure HandlerCtx where
  rewriteRender : String → String
  engine : String → Except PgError EngineOut
  env : AuthEnv
  fuel : Nat
  catalogs : List String

deriving instance DecidableEq for Except

/-- One handler step: the result sent to the client, the session after
the pgwire status update, and every SQL string submitted to the
engine. -/
structure StepResult where
  result : Except PgError Response
  sess : Session
  engineCalls : List String
deriving DecidableEq

def mkStep (sess : Session) (r : Except PgError Response)
    (calls : List String) : StepResult :=
  ⟨r, { sess with status := nextStatus sess.status r }, calls⟩

/-- Permission-check skip list of the Simple Query handler. -/
def simpleSkipsPermission (ql : String) : Bool :=
  strStartsWith ql "set" || strStartsWith ql "begin" ||
  strStartsWith ql "commit" || strStartsWith ql "rollback" ||
  strStartsWith ql "start" || strStartsWith ql "end" ||
  strStartsWith ql "abort" || strStartsWith ql "show"

/-- Permission-check skip list of the Extended Query handler. -/
def extendedSkipsPermission (ql : String) : Bool :=
  strStartsWith ql "set" || strStartsWith ql "show" ||
  strStartsWith ql "begin" || strStartsWith ql "commit" ||
  strStartsWith ql "rollback"

/-- `SimpleQueryHandler::do_query`.  `raw` is the query text; `parsed`
is the outcome of `parse(query)` (`none` = parse error); rewriting is
`ctx.rewriteRender` on the statement's rendering. -/
def doQuerySimple (ctx : HandlerCtx) (sess : Session) (raw : String)
    (parsed : Option (List Ast)) : StepResult :=
  let ql := lowerTrim raw
  match txnVerbOf ql with
  | some k => mkStep sess (respondTxn sess.status k) []
  | none =>
    match parsed with
    | none => mkStep sess (Except.error errApi) []
    | some [] => mkStep sess (Except.error errPanic) []
    | some (Ast.setVariable vars vals :: _) =>
      let (r, calls) := handleSetStructured sess vars vals
      match r with
      | Except.ok (resp, sess') => mkStep sess' (Except.ok resp) calls
      | Except.error e => mkStep sess (Except.error e) calls
    | some (Ast.showVariable parts :: _) =>
      mkStep sess (handleShowStructured ctx.catalogs sess parts) []
    | some (Ast.other rendered :: _) =>
      let query := ctx.rewriteRender rendered
      let ql2 := lowerTrim query
      let permResult :=
        if ¬ simpleSkipsPermission ql2 then
          checkQueryPermission ctx.env ctx.fuel sess query
        else Except.ok ()
      match permResult with
      | Except.error e => mkStep sess (Except.error e) []
      | Except.ok _ =>
        if sess.status = TxnStatus.failed then
          mkStep sess (Except.error errInFailedTxn) []
        else
          match ctx.engine query with
          | Except.error e => mkStep sess (Except.error e) [query]
          | Except.ok out =>
            if strStartsWith ql2 "insert into" then
              mkStep sess (Except.ok (Response.insertTag out.insertCount))
                [query]
            else mkStep sess (Except.ok Response.queryResult) [query]

/-- `ExtendedQueryHandler::do_query`.  `storedSql` is the SQL stored
with the prepared statement; `reparsed` is `crate::sql::parse`'s
re-parse used for the structured SET/SHOW path. -/
def doQueryExtended (ctx : HandlerCtx) (sess : Session)
    (storedSql : String) (reparsed : Option (List Ast)) : StepResult :=
  match reparsed with
  | some (Ast.setVariable vars vals :: _) =>
    let (r, calls) := handleSetStructured sess vars vals
    match r with
    | Except.ok (resp, sess') => mkStep sess' (Except.ok resp) calls
    | Except.error e => mkStep sess (Except.error e) calls
  | some (Ast.showVariable parts :: _) =>
    mkStep sess (handleShowStructured ctx.catalogs sess parts) []
  | _ =>
    let ql := lowerTrim storedSql
    match txnVerbOf ql with
    | some k => mkStep sess (respondTxn sess.status k) []
    | none =>
      let permResult :=
        if ¬ extendedSkipsPermission ql then
          checkQueryPermission ctx.env ctx.fuel sess storedSql
        else Except.ok ()
      match permResult with
      | Except.error e => mkStep sess (Except.error e) []
      | Except.ok _ =>
        if sess.status = TxnStatus.failed then
          mkStep sess (Except.error errInFailedTxn) []
        else
          match ctx.engine storedSql with
          | Except.error e => mkStep sess (Except.error e) [storedSql]
          | Except.ok _ =>
            mkStep sess (Except.ok Response.queryResult) [storedSql]

/-! ### Classification excludes the permission-skip keywords -/

theorem not_both_prefixesOf {s : String} {p q : List Char}
    (hp : p.isPrefixOf s.data = true) (hq : q.isPrefixOf s.data = true)
    (h1 : p.isPrefixOf q = false) (h2 : q.isPrefixOf p = false) :
    False := by
  rw [List.isPrefixOf_iff_prefix] at hp hq
  rcases List.prefix_or_prefix_of_prefix hp hq with h | h
  · rw [← List.isPrefixOf_iff_prefix] at h
    simp [h1] at h
  · rw [← List.isPrefixOf_iff_prefix] at h
    simp [h2] at h

theorem startsWith_excludes {ql k s : String}
    (hk : strStartsWith ql k = true)
    (h1 : k.data.isPrefixOf s.data = false)
    (h2 : s.data.isPrefixOf k.data = false) :
    strStartsWith ql s = false := by
  by_contra h
  rw [Bool.not_eq_false] at h
  exact not_both_prefixesOf hk h h1 h2

/-- A statement the dispatcher classifies for a permission check never
starts with any keyword of either permission-skip list. -/
theorem classify_not_skipped (q : String) (x : Permission × ResourceType)
    (h : classifyQuery q = some x) :
    simpleSkipsPermission (lowerTrim q) = false ∧
      extendedSkipsPermission (lowerTrim q) = false := by
  have hkey : strStartsWith (lowerTrim q) "select" = true ∨
      strStartsWith (lowerTrim q) "insert" = true ∨
      strStartsWith (lowerTrim q) "update" = true ∨
      strStartsWith (lowerTrim q) "delete" = true ∨
      strStartsWith (lowerTrim q) "create table" = true ∨
      strStartsWith (lowerTrim q) "create view" = true ∨
      strStartsWith (lowerTrim q) "drop" = true ∨
      strStartsWith (lowerTrim q) "alter" = true := by
    unfold classifyQuery at h
    split_ifs at h with h1 h2 h3 h4 h5 h6 h7 <;> tauto
  unfold simpleSkipsPermission extendedSkipsPermission
  rcases hkey with hk | hk | hk | hk | hk | hk | hk | hk <;>
  all_goals
    rw [@startsWith_excludes _ _ "set" hk (by decide) (by decide),
      @startsWith_excludes _ _ "begin" hk (by decide) (by decide),
      @startsWith_excludes _ _ "commit" hk (by decide) (by decide),
      @startsWith_excludes _ _ "rollback" hk (by decide) (by decide),
      @startsWith_excludes _ _ "start" hk (by decide) (by decide),
      @startsWith_excludes _ _ "end" hk (by decide) (by decide),
      @startsWith_excludes _ _ "abort" hk (by decide) (by decide),
      @startsWith_excludes _ _ "show" hk (by decide) (by decide)]
    exact ⟨rfl, rfl⟩

/-! ### Test fixtures -/

/-- A default `postgres` superuser environment. -/
def envSuper : AuthEnv :=
  ⟨[("postgres", ⟨["postgres"], true⟩)],
   [("postgres", ⟨true, [⟨Permission.allP, ResourceType.allR⟩], []⟩)]⟩

/-- A non-superuser whose only role is itself a superuser role without
any grants. -/
def envRoleSuper : AuthEnv :=
  ⟨[("u", ⟨["r"], false⟩)], [("r", ⟨true, [], []⟩)]⟩

/-- A non-superuser with no roles at all. -/
def envDenied : AuthEnv := ⟨[("u", ⟨[], false⟩)], []⟩

def ctxSuper : HandlerCtx :=
  ⟨id, fun _ => Except.ok ⟨0⟩, envSuper, 8, ["datafusion"]⟩

def ctxDenied : HandlerCtx :=
  ⟨id, fun _ => Except.ok ⟨0⟩, envDenied, 8, ["datafusion"]⟩

def sessFailedPg : Session := ⟨TxnStatus.failed, none, "UTC", some "postgres"⟩

def sessIdleU : Session := ⟨TxnStatus.idle, none, "UTC", some "u"⟩

/-- Whether the first re-parsed statement is SET or SHOW (the extended
handler services those before everything else). -/
def isSetShowHead : Option (List Ast) → Bool
  | some (Ast.setVariable _ _ :: _) => true
  | some (Ast.showVariable _ :: _) => true
  | _ => false

/-! ### C1: failed-transaction gating -/

/-- Claim C1 counterexample: with the session in a Failed transaction,
the Simple Query handler services `SET statement_timeout = '5000ms'`
(a non-transaction command) with a `SET` tag instead of failing with
SQLSTATE 25P01, because the structured SET/SHOW path runs before the
failed-transaction check. -/
theorem txn_c1_counterexample :
    (doQuerySimple ctxSuper sessFailedPg "SET statement_timeout = '5000ms'"
      (some [Ast.setVariable ["statement_timeout"] ["'5000ms'"]])).result
        = Except.ok (Response.executionTag "SET") ∧
    (doQuerySimple ctxSuper sessFailedPg "SET statement_timeout = '5000ms'"
      (some [Ast.setVariable ["statement_timeout"] ["'5000ms'"]])).result
        ≠ Except.error errInFailedTxn ∧
    (doQuerySimple ctxSuper sessFailedPg "SET statement_timeout = '5000ms'"
      (some [Ast.setVariable ["statement_timeout"] ["'5000ms'"]])).sess.status
        = TxnStatus.failed := by
  refine ⟨by decide, by decide, by decide⟩

/-- Claim C1 (amended): in a Failed transaction, every non-transaction
command other than SET/SHOW that parses and passes the permission gate
fails with SQLSTATE 25P01, leaves the status Failed, and submits no
engine work — in both the Simple and the Extended Query handler — and
COMMIT/END and ROLLBACK/ABORT end the failed block with a `ROLLBACK`
tag and an Idle status. -/
theorem txn_c1_amended :
    (∀ ctx sess raw rendered rest,
      sess.status = TxnStatus.failed →
      txnVerbOf (lowerTrim raw) = none →
      (simpleSkipsPermission (lowerTrim (ctx.rewriteRender rendered)) = true ∨
        checkQueryPermission ctx.env ctx.fuel sess (ctx.rewriteRender rendered)
          = Except.ok ()) →
      doQuerySimple ctx sess raw (some (Ast.other rendered :: rest)) =
        ⟨Except.error errInFailedTxn, sess, []⟩) ∧
    (∀ ctx sess sql reparsed,
      sess.status = TxnStatus.failed →
      isSetShowHead reparsed = false →
      txnVerbOf (lowerTrim sql) = none →
      (extendedSkipsPermission (lowerTrim sql) = true ∨
        checkQueryPermission ctx.env ctx.fuel sess sql = Except.ok ()) →
      doQueryExtended ctx sess sql reparsed =
        ⟨Except.error errInFailedTxn, sess, []⟩) ∧
    (∀ k, (k = TxnKind.tkCommit ∨ k = TxnKind.tkRollback) →
      respondTxn TxnStatus.failed k =
        Except.ok (Response.transactionEnd "ROLLBACK") ∧
      nextStatus TxnStatus.failed (respondTxn TxnStatus.failed k) =
        TxnStatus.idle) := by
  refine ⟨?_, ?_, ?_⟩
  · intro ctx sess raw rendered rest hst htxn hperm
    obtain ⟨st, tm, tz, us⟩ := sess
    simp only at hst
    subst hst
    rcases hperm with hskip | hok <;>
      cases hsk : simpleSkipsPermission
          (lowerTrim (ctx.rewriteRender rendered)) <;>
        simp_all [doQuerySimple, htxn, mkStep, nextStatus]
  · intro ctx sess sql reparsed hst hss htxn hperm
    obtain ⟨st, tm, tz, us⟩ := sess
    simp only at hst
    subst hst
    rcases reparsed with _ | (_ | ⟨a, l⟩)
    · rcases hperm with hskip | hok <;>
        cases hsk : extendedSkipsPermission (lowerTrim sql) <;>
          simp_all [doQueryExtended, htxn, mkStep, nextStatus]
    · rcases hperm with hskip | hok <;>
        cases hsk : extendedSkipsPermission (lowerTrim sql) <;>
          simp_all [doQueryExtended, htxn, mkStep, nextStatus]
    · cases a with
      | setVariable vars vals => simp [isSetShowHead] at hss
      | showVariable parts => simp [isSetShowHead] at hss
      | other rendered =>
        rcases hperm with hskip | hok <;>
          cases hsk : extendedSkipsPermission (lowerTrim sql) <;>
            simp_all [doQueryExtended, htxn, mkStep, nextStatus]
  · rintro k (rfl | rfl) <;> exact ⟨rfl, rfl⟩

/-- Witness for the amended C1: a failed session, `SELECT 1`, and the
default superuser environment. -/
theorem txn_c1_witness :
    doQuerySimple ctxSuper sessFailedPg "SELECT 1"
      (some [Ast.other "SELECT 1"]) =
      ⟨Except.error errInFailedTxn, sessFailedPg, []⟩ :=
  txn_c1_amended.1 ctxSuper sessFailedPg "SELECT 1" "SELECT 1" []
    (by decide) (by decide) (Or.inr (by decide))

/-! ### C2: permission non-escalation -/

theorem envRoleSuper_reach {rn : String}
    (h : ReachesFrom envRoleSuper ["r"] rn) : rn = "r" := by
  induction h with
  | base hm => simpa using hm
  | step hprev hrole hmem ih =>
    subst ih
    have hr : envRoleSuper.getRole "r" = some ⟨true, [], []⟩ := by decide
    rw [hr] at hrole
    injection hrole with hrole
    rw [← hrole] at hmem
    simp at hmem

/-- Claim C2 counterexample: a non-superuser whose only role is a
superuser role with no grants is accepted by `check_permission`, but
the claim's acceptance condition (superuser user, or a reachable role
holding a matching grant) is false — the code also accepts through
superuser roles. -/
theorem permission_c2_counterexample :
    checkPermission envRoleSuper 1 "u" Permission.select ResourceType.allR
      = true ∧
    ¬ claimAccepts envRoleSuper "u" Permission.select ResourceType.allR := by
  refine ⟨by decide, ?_⟩
  rintro ⟨user, huser, hcase⟩
  have hu : envRoleSuper.getUser "u" = some ⟨["r"], false⟩ := by decide
  rw [hu] at huser
  injection huser with huser
  subst huser
  rcases hcase with hs | ⟨rn, role, hr, hrole, hg⟩
  · simp at hs
  · have hrn : rn = "r" := envRoleSuper_reach hr
    subst hrn
    have hrr : envRoleSuper.getRole "r" = some ⟨true, [], []⟩ := by decide
    rw [hrr] at hrole
    injection hrole with hrole
    rw [← hrole] at hg
    simp [roleGrantMatches] at hg

/-- Claim C2 (amended): if the statement's first keyword classifies to
a `(permission, resource)` pair and `check_permission` denies it, both
query handlers answer SQLSTATE 42501 and submit nothing to the engine;
and `check_permission` accepts (for some recursion depth) iff the user
is a superuser, or some role reachable through `inherited_roles` is a
superuser role or holds a grant matching the permission (`All` matches
everything) and the resource (`All` matches everything; `Schema(s)`
matches `Table("s.t")`; exact equality otherwise). -/
theorem permission_c2_amended :
    (∀ ctx sess raw rendered rest p res,
      txnVerbOf (lowerTrim raw) = none →
      classifyQuery (ctx.rewriteRender rendered) = some (p, res) →
      checkPermission ctx.env ctx.fuel (sess.user.getD "anonymous") p res
        = false →
      (doQuerySimple ctx sess raw
        (some (Ast.other rendered :: rest))).result =
          Except.error errInsufficientPrivilege ∧
      (doQuerySimple ctx sess raw
        (some (Ast.other rendered :: rest))).engineCalls = []) ∧
    (∀ ctx sess sql reparsed p res,
      isSetShowHead reparsed = false →
      txnVerbOf (lowerTrim sql) = none →
      classifyQuery sql = some (p, res) →
      checkPermission ctx.env ctx.fuel (sess.user.getD "anonymous") p res
        = false →
      (doQueryExtended ctx sess sql reparsed).result =
          Except.error errInsufficientPrivilege ∧
      (doQueryExtended ctx sess sql reparsed).engineCalls = []) ∧
    (∀ env u p r,
      (∃ f, checkPermission env f u p r = true) ↔ specAccepts env u p r) := by
  refine ⟨?_, ?_, checkPermission_iff_specAccepts⟩
  · intro ctx sess raw rendered rest p res htxn hcls hperm
    have hskip := (classify_not_skipped _ _ hcls).1
    refine ⟨?_, ?_⟩ <;>
      simp [doQuerySimple, htxn, hskip, checkQueryPermission, hcls, hperm,
        mkStep]
  · intro ctx sess sql reparsed p res hss htxn hcls hperm
    have hskip := (classify_not_skipped _ _ hcls).2
    rcases reparsed with _ | (_ | ⟨a, l⟩)
    · refine ⟨?_, ?_⟩ <;>
        simp [doQueryExtended, htxn, hskip, checkQueryPermission, hcls,
          hperm, mkStep]
    · refine ⟨?_, ?_⟩ <;>
        simp [doQueryExtended, htxn, hskip, checkQueryPermission, hcls,
          hperm, mkStep]
    · cases a with
      | setVariable vars vals => simp [isSetShowHead] at hss
      | showVariable parts => simp [isSetShowHead] at hss
      | other rendered =>
        refine ⟨?_, ?_⟩ <;>
          simp [doQueryExtended, htxn, hskip, checkQueryPermission, hcls,
            hperm, mkStep]

/-- Witness for the amended C2: user `u` with no grants issuing
`SELECT * FROM t` is denied with 42501 and no engine call, and the
acceptance equivalence instantiated at the same denied request. -/
theorem permission_c2_witness :
    ((doQuerySimple ctxDenied sessIdleU "SELECT * FROM t"
        (some [Ast.other "SELECT * FROM t"])).result =
          Except.error errInsufficientPrivilege ∧
      (doQuerySimple ctxDenied sessIdleU "SELECT * FROM t"
        (some [Ast.other "SELECT * FROM t"])).engineCalls = []) ∧
    ((∃ f, checkPermission envDenied f "u" Permission.select
        (ResourceType.table "t") = true) ↔
      specAccepts envDenied "u" Permission.select
        (ResourceType.table "t")) :=
  ⟨permission_c2_amended.1 ctxDenied sessIdleU "SELECT * FROM t"
      "SELECT * FROM t" [] Permission.select (ResourceType.table "t")
      (by decide) (by decide) (by decide),
    permission_c2_amended.2.2 envDenied "u" Permission.select
      (ResourceType.table "t")⟩

/-! ### C4: SET statement_timeout -/

theorem parseU64Digits_lt {d : List Char} {n : Nat}
    (h : parseU64Digits d = some n) : n < 2 ^ 64 := by
  unfold parseU64Digits at h
  split_ifs at h
  all_goals simp_all

theorem parseU64_lt {s : List Char} {n : Nat} (h : parseU64 s = some n) :
    n < 2 ^ 64 := parseU64Digits_lt h

/-- The amended-claim side: split off an optional `ms`/`s`/`min`
suffix, giving the digit string and a millisecond multiplier. -/
def suffixSplit (t : List Char) : List Char × Nat :=
  if "ms".data.isSuffixOf t then (trimEndMatches "ms".data t, 1)
  else if "s".data.isSuffixOf t then (trimEndMatches "s".data t, 1000)
  else if "min".data.isSuffixOf t then (trimEndMatches "min".data t, 60000)
  else (t, 1)

/-- The amended-claim side of the timeout computation: strip quotes,
`0` or empty disables, parse number times suffix multiplier, keep only
positive results. -/
def specStatementTimeout (v : String) : Option Nat :=
  if stripQuotes v = "0".data ∨ (stripQuotes v).isEmpty then none
  else
    match parseU64 (suffixSplit (stripQuotes v)).1 with
    | some n =>
      if n * (suffixSplit (stripQuotes v)).2 % 2 ^ 64 > 0 then
        some (n * (suffixSplit (stripQuotes v)).2 % 2 ^ 64)
      else none
    | none => none

theorem rustTimeoutMs_eq (t : List Char) :
    rustTimeoutMs t = (parseU64 (suffixSplit t).1).map
      (fun n => n * (suffixSplit t).2 % 2 ^ 64) := by
  unfold rustTimeoutMs suffixSplit
  by_cases hms : ("ms".data.isSuffixOf t) = true
  · rw [if_pos hms, if_pos hms]
    rcases hp : parseU64 (trimEndMatches "ms".data t) with _ | n
    · rfl
    · have hlt := parseU64_lt hp
      simp [hp]
      omega
  · rw [if_neg hms, if_neg hms]
    by_cases hs : ("s".data.isSuffixOf t) = true
    · rw [if_pos hs, if_pos hs]
    · rw [if_neg hs, if_neg hs]
      by_cases hmin : ("min".data.isSuffixOf t) = true
      · rw [if_pos hmin, if_pos hmin]
        have hfun : (fun n => n * 60 * 1000 % 2 ^ 64) =
            (fun n : Nat => n * 60000 % 2 ^ 64) := by
          funext n
          rw [Nat.mul_assoc]
        rw [hfun]
      · rw [if_neg hmin, if_neg hmin]
        rcases hp : parseU64 t with _ | n
        · rfl
        · have hlt := parseU64_lt hp
          simp [hp]
          omega

theorem rustStatementTimeout_eq_spec (v : String) :
    rustStatementTimeout v = specStatementTimeout v := by
  unfold rustStatementTimeout specStatementTimeout
  by_cases hz : (stripQuotes v = "0".data ∨ (stripQuotes v).isEmpty = true)
  · rw [if_pos hz, if_pos hz]
  · rw [if_neg hz, if_neg hz, rustTimeoutMs_eq]
    rcases hp : parseU64 (suffixSplit (stripQuotes v)).1 with _ | n
    · rfl
    · rfl

def sessTimed : Session := ⟨TxnStatus.idle, some 1000, "UTC", some "postgres"⟩

/-- Claim C4 counterexample: the invalid value `'abc'` does not produce
SQLSTATE 42601 — the handler replies `SET` and silently clears the
previously set timeout. -/
theorem setTimeout_c4_counterexample :
    handleSetStructured sessTimed ["statement_timeout"] ["'abc'"] =
      (Except.ok (Response.executionTag "SET",
        { sessTimed with timeoutMs := none }), []) ∧
    (handleSetStructured sessTimed ["statement_timeout"] ["'abc'"]).1 ≠
      Except.error errSyntax := by
  refine ⟨by decide, by decide⟩

/-- Claim C4 (amended): `SET statement_timeout` with a value replies
`SET` and stores the parsed millisecond count (value `0`, empty, or
any unparsable value clears the timeout instead of erroring); only a
missing value returns SQLSTATE 42601.  Parsing supports the suffixes
`ms`, `s` and `min`. -/
theorem setTimeout_c4_amended :
    (∀ sess, handleSetStructured sess ["statement_timeout"] [] =
      (Except.error errSyntax, [])) ∧
    (∀ sess v rest,
      handleSetStructured sess ["statement_timeout"] (v :: rest) =
        (Except.ok (Response.executionTag "SET",
          { sess with timeoutMs := specStatementTimeout v }), [])) ∧
    specStatementTimeout "'5000ms'" = some 5000 ∧
    specStatementTimeout "'0'" = none ∧
    specStatementTimeout "" = none ∧
    specStatementTimeout "2s" = some 2000 ∧
    specStatementTimeout "3min" = some 180000 ∧
    specStatementTimeout "'abc'" = none ∧
    errSyntax.sqlstate = "42601" := by
  refine ⟨?_, ?_, by decide, by decide, by decide, by decide, by decide,
    by decide, rfl⟩
  · intro sess
    simp only [handleSetStructured]
    rw [if_neg (by decide), if_pos (by decide)]
    rfl
  · intro sess v rest
    simp only [handleSetStructured]
    rw [if_neg (by decide), if_pos (by decide)]
    simp only [List.head?_cons, rustStatementTimeout_eq_spec]

/-! ### C10: multiple statements in one Simple Query -/

/-- Claim C10: the Simple Query handler uses only the first parsed
statement; any further statements in the same query text are silently
discarded — the handler result is identical to handling the first
statement alone, with no error for the rest. -/
theorem multiStatement_c10 :
    ∀ ctx sess raw s rest,
      doQuerySimple ctx sess raw (some (s :: rest)) =
        doQuerySimple ctx sess raw (some [s]) := by
  intro ctx sess raw s rest
  unfold doQuerySimple
  cases htxn : txnVerbOf (lowerTrim raw) <;> cases s <;> simp [htxn]

/-! ## Decimal256 text encoding (arrow-pg/src/list_encoder.rs) -/

/-- The `DataType::Decimal256(_, s)` branch of `encode_list`: the i256
value's decimal string `valueStr` gets a decimal point by splicing
characters, exactly as the source manipulates the `chars` vector. -/
def decimal256Text (scale : Nat) (valueStr : List Char) : List Char :=
  if scale = 0 then valueStr
  else
    if valueStr.length ≤ scale then
      List.insertIdx 1 '.'
        (List.replicate (scale - valueStr.length + 1) '0' ++ valueStr)
    else
      List.insertIdx (valueStr.length - scale) '.' valueStr

/-- The claim side of C9: left-pad with zeros and place a leading
`0.` when the digit string is short, else insert `.` at `len - scale`,
phrased with `take`/`drop` instead of splicing. -/
def specDecimal256Text (scale : Nat) (valueStr : List Char) : List Char :=
  if valueStr.length ≤ scale then
    '0' :: '.' :: (List.replicate (scale - valueStr.length) '0' ++ valueStr)
  else
    valueStr.take (valueStr.length - scale) ++
      '.' :: valueStr.drop (valueStr.length - scale)

theorem insertIdx_eq_take_drop {α : Type} (a : α) :
    ∀ (n : Nat) (l : List α), n ≤ l.length →
      List.insertIdx n a l = l.take n ++ a :: l.drop n := by
  intro n
  induction n with
  | zero => intro l _; simp
  | succ n ih =>
    intro l hl
    rcases l with _ | ⟨x, xs⟩
    · simp at hl
    · rw [List.insertIdx_succ_cons, ih xs (by simpa using hl)]
      simp

/-- Claim C9: for scale `s > 0` the Decimal256 text encoding is the
scaled-decimal transform of the value's integer string — zeros
left-padded with a leading `0.` when the digit count is at most `s`,
else `.` inserted at position `len - s`; in particular when the digit
count equals `s` the output is `0.` followed by exactly those `s`
digits. -/
theorem decimal256_c9 (s : Nat) (valueStr : List Char) (hs : 0 < s) :
    decimal256Text s valueStr = specDecimal256Text s valueStr ∧
    (valueStr.length = s →
      decimal256Text s valueStr = '0' :: '.' :: valueStr) := by
  have hs0 : s ≠ 0 := Nat.pos_iff_ne_zero.mp hs
  constructor
  · unfold decimal256Text specDecimal256Text
    rw [if_neg hs0]
    by_cases hle : valueStr.length ≤ s
    · rw [if_pos hle, if_pos hle]
      have : s - valueStr.length + 1 = (s - valueStr.length) + 1 := rfl
      rw [this, List.replicate_succ, List.cons_append,
        List.insertIdx_succ_cons, List.insertIdx_zero]
    · rw [if_neg hle, if_neg hle]
      exact insertIdx_eq_take_drop '.' (valueStr.length - s) valueStr
        (by omega)
  · intro hlen
    unfold decimal256Text
    rw [if_neg hs0, if_pos (by omega), hlen]
    have : s - s + 1 = 1 := by omega
    rw [this]
    simp [List.insertIdx_succ_cons]

/-- Witness for C9 at scale 2 with digit strings of length 1, 2, 3:
`5 → 0.05`, `42 → 0.42`, `123 → 1.23`. -/
theorem decimal256_c9_witness :
    (0 < 2 ∧ decimal256Text 2 ['5'] = "0.05".data) ∧
    decimal256Text 2 ['4', '2'] = '0' :: '.' :: ['4', '2'] ∧
    decimal256Text 2 ['1', '2', '3'] = "1.23".data := by
  refine ⟨⟨by decide, ?_⟩, ?_, by decide⟩
  · have h := (decimal256_c9 2 ['5'] (by decide)).1
    rw [h]
    decide
  · exact (decimal256_c9 2 ['4', '2'] (by decide)).2 (by decide)

/-! ## OID cache (datafusion-postgres/src/pg_catalog.rs) -/

/-- `OidCacheKey`. -/
inductive OidKey where
  | cat (c : String)
  | sch (c s : String)
  | tbl (c s t : String)
deriving DecidableEq, Repr

/-- The shared `oid_counter` (`AtomicU32`, starting at 16384) and the
`oid_cache` map. -/
structure OidState where
  counter : Nat
  cache : List (OidKey × Nat)
deriving DecidableEq, Repr

def initOidState : OidState := ⟨16384, []⟩

def lookupOid (cache : List (OidKey × Nat)) (k : OidKey) : Option Nat :=
  (cache.find? (fun p => p.1 = k)).map Prod.snd

/-- HashMap insert: overwrite the key's entry. -/
def insertOid (cache : List (OidKey × Nat)) (k : OidKey) (v : Nat) :
    List (OidKey × Nat) :=
  (k, v) :: cache.filter (fun p => ¬ p.1 = k)

/-- One cache-key visit during a scan: reuse the OID found in the old
cache, or draw `fetch_add(1, Ordering::Relaxed)` from the `AtomicU32`
counter — the returned OID is the old counter value and the stored
counter wraps at 2^32. -/
def stepKey (old : List (OidKey × Nat)) (acc : Nat × List (OidKey × Nat))
    (k : OidKey) : Nat × List (OidKey × Nat) :=
  match lookupOid old k with
  | some oid => (acc.1, insertOid acc.2 k oid)
  | none => ((acc.1 + 1) % 4294967296, insertOid acc.2 k acc.1)

/-- The same visit with an unbounded counter; used only as a proof
device — `foldKeys_eq_nowrap` shows it agrees with `stepKey` while the
counter stays below 2^32. -/
def stepKeyNW (old : List (OidKey × Nat))
    (acc : Nat × List (OidKey × Nat)) (k : OidKey) :
    Nat × List (OidKey × Nat) :=
  match lookupOid old k with
  | some oid => (acc.1, insertOid acc.2 k oid)
  | none => (acc.1 + 1, insertOid acc.2 k acc.1)

/-- The engine's current catalog list: catalogs, schemas, tables. -/
abbrev CatalogTree := List (String × List (String × List String))

/-- The key sequence a `pg_class` scan visits, in source order. -/
def keysOf (tree : CatalogTree) : List OidKey :=
  tree.flatMap (fun ct =>
    OidKey.cat ct.1 :: ct.2.flatMap (fun st =>
      OidKey.sch ct.1 st.1 :: st.2.map (fun t => OidKey.tbl ct.1 st.1 t)))

/-- `PgClassTable::get_data`'s rebuild-and-swap of the OID cache. -/
def scanOid (st : OidState) (tree : CatalogTree) : OidState :=
  ⟨((keysOf tree).foldl (stepKey st.cache) (st.counter, [])).1,
   ((keysOf tree).foldl (stepKey st.cache) (st.counter, [])).2⟩

/-- The rebuild-and-swap with the unbounded-counter step (proof
device, see `scanOid_eq_NW`). -/
def scanOidNW (st : OidState) (tree : CatalogTree) : OidState :=
  ⟨((keysOf tree).foldl (stepKeyNW st.cache) (st.counter, [])).1,
   ((keysOf tree).foldl (stepKeyNW st.cache) (st.counter, [])).2⟩

/-- The key sequence a `pg_namespace` scan visits (one `Schema` key per
schema of each catalog). -/
def schemaKeysOf (tree : CatalogTree) : List OidKey :=
  tree.flatMap (fun ct => ct.2.map (fun st => OidKey.sch ct.1 st.1))

/-- The key sequence a `pg_database` scan visits: one `Catalog` key per
catalog, plus the synthetic `postgres` entry when absent. -/
def catalogKeysOf (tree : CatalogTree) : List OidKey :=
  tree.map (fun ct => OidKey.cat ct.1) ++
    (if tree.any (fun ct => ct.1 = "postgres") then []
     else [OidKey.cat "postgres"])

/-- `pg_namespace`'s retain predicate: keep every Catalog key, drop all
Schema keys (they are re-added from the scan), keep Table keys whose
schema was visited. -/
def nsRetain (sc : List (OidKey × Nat)) : OidKey → Bool
  | OidKey.cat _ => true
  | OidKey.sch _ _ => false
  | OidKey.tbl c s _ => (lookupOid sc (OidKey.sch c s)).isSome

/-- `pg_database`'s retain predicate: drop all Catalog keys (re-added
from the scan), keep Schema/Table keys whose catalog was visited. -/
def dbRetain (sc : List (OidKey × Nat)) : OidKey → Bool
  | OidKey.cat _ => false
  | OidKey.sch c _ => (lookupOid sc (OidKey.cat c)).isSome
  | OidKey.tbl c _ _ => (lookupOid sc (OidKey.cat c)).isSome

/-- `HashMap::extend`: insert every pair, overwriting. -/
def extendCache (base ps : List (OidKey × Nat)) : List (OidKey × Nat) :=
  ps.foldl (fun cache p => insertOid cache p.1 p.2) base

/-- The retain/extend cache update shared by the `pg_namespace` and
`pg_database` scans: visit the keys (drawing OIDs), `retain` the old
cache through the keep predicate, then `extend` with the visited
pairs. -/
def retainExtend (st : OidState) (visited : List OidKey)
    (keep : List (OidKey × Nat) → OidKey → Bool) : OidState :=
  ⟨(visited.foldl (stepKey st.cache) (st.counter, [])).1,
    extendCache
      (st.cache.filter (fun p =>
        keep (visited.foldl (stepKey st.cache) (st.counter, [])).2 p.1))
      (visited.foldl (stepKey st.cache) (st.counter, [])).2⟩

/-- `PgNamespaceTable::get_data`'s cache update. -/
def scanNamespace (st : OidState) (tree : CatalogTree) : OidState :=
  retainExtend st (schemaKeysOf tree) nsRetain

/-- `PgDatabaseTable::get_data`'s cache update. -/
def scanDatabase (st : OidState) (tree : CatalogTree) : OidState :=
  retainExtend st (catalogKeysOf tree) dbRetain

/-- Whether a sequence of pg_class scans never lets the u32 counter
reach the wrap point. -/
def scansNoWrap : OidState → List CatalogTree → Bool
  | _, [] => true
  | st, t :: ts =>
    decide (st.counter + (keysOf t).length < 4294967296) &&
      scansNoWrap (scanOid st t) ts

/-- The cache invariant: counter at or above the 16384 floor, every
cached OID below the counter, and no OID shared by two keys. -/
def OidInv (st : OidState) : Prop :=
  16384 ≤ st.counter ∧
  (∀ p ∈ st.cache, p.2 < st.counter) ∧
  (∀ p ∈ st.cache, ∀ q ∈ st.cache, p.2 = q.2 → p.1 = q.1)

theorem lookupOid_insert_self (c : List (OidKey × Nat)) (k : OidKey)
    (v : Nat) : lookupOid (insertOid c k v) k = some v := by
  simp [lookupOid, insertOid, List.find?]

theorem lookupOid_insert_other (c : List (OidKey × Nat)) {k k' : OidKey}
    (v : Nat) (h : k' ≠ k) :
    lookupOid (insertOid c k v) k' = lookupOid c k' := by
  simp only [lookupOid, insertOid]
  rw [List.find?_cons_of_neg _ (by simpa using fun hc => h hc.symm)]
  congr 1
  induction c with
  | nil => rfl
  | cons p ps ih =>
    by_cases hp : p.1 = k
    · rw [List.filter_cons_of_neg (by simpa using hp)]
      rw [List.find?_cons_of_neg _
        (by simp [hp]; exact fun hc => h hc.symm)]
      exact ih
    · rw [List.filter_cons_of_pos (by simpa using hp)]
      by_cases hk' : p.1 = k'
      · rw [List.find?_cons_of_pos _ (by simp [hk'])]
        rw [List.find?_cons_of_pos _ (by simp [hk'])]
      · rw [List.find?_cons_of_neg _ (by simp [hk'])]
        rw [List.find?_cons_of_neg _ (by simp [hk'])]
        exact ih

theorem mem_insertOid {c : List (OidKey × Nat)} {k : OidKey} {v : Nat}
    {p : OidKey × Nat} (h : p ∈ insertOid c k v) :
    p = (k, v) ∨ (p ∈ c ∧ p.1 ≠ k) := by
  rw [insertOid, List.mem_cons] at h
  rcases h with h | h
  · exact Or.inl h
  · right
    rw [List.mem_filter] at h
    exact ⟨h.1, by simpa using h.2⟩

theorem lookupOid_mem {c : List (OidKey × Nat)} {k : OidKey} {v : Nat}
    (h : lookupOid c k = some v) : (k, v) ∈ c := by
  simp only [lookupOid, Option.map_eq_some'] at h
  obtain ⟨p, hfind, hsnd⟩ := h
  have hmem := List.mem_of_find?_eq_some hfind
  have hp := List.find?_some hfind
  simp only [decide_eq_true_eq] at hp
  have : p = (k, v) := by
    cases p
    simp_all
  rwa [this] at hmem

theorem foldKeys_eq_nowrap (old : List (OidKey × Nat)) :
    ∀ (ks : List OidKey) (acc : Nat × List (OidKey × Nat)),
      acc.1 + ks.length < 4294967296 →
      ks.foldl (stepKey old) acc = ks.foldl (stepKeyNW old) acc := by
  intro ks
  induction ks with
  | nil => intro acc _; rfl
  | cons k ks ih =>
    intro acc h
    simp only [List.length_cons] at h
    rw [List.foldl_cons, List.foldl_cons]
    have hstep : stepKey old acc k = stepKeyNW old acc k := by
      unfold stepKey stepKeyNW
      rcases lookupOid old k with _ | v
      · have hlt : acc.1 + 1 < 4294967296 := by omega
        rw [Nat.mod_eq_of_lt hlt]
      · rfl
    rw [hstep]
    apply ih
    have hle : (stepKeyNW old acc k).1 ≤ acc.1 + 1 := by
      unfold stepKeyNW
      rcases lookupOid old k with _ | v <;> simp
    omega

theorem scanOid_eq_NW (st : OidState) (tree : CatalogTree)
    (h : st.counter + (keysOf tree).length < 4294967296) :
    scanOid st tree = scanOidNW st tree := by
  unfold scanOid scanOidNW
  rw [foldKeys_eq_nowrap st.cache (keysOf tree) (st.counter, []) h]

theorem foldKeys_counter_le (old : List (OidKey × Nat)) :
    ∀ (ks : List OidKey) (acc : Nat × List (OidKey × Nat)),
      acc.1 ≤ (ks.foldl (stepKeyNW old) acc).1 := by
  intro ks
  induction ks with
  | nil => intro acc; exact Nat.le_refl _
  | cons k ks ih =>
    intro acc
    refine le_trans ?_ (ih (stepKeyNW old acc k))
    unfold stepKeyNW
    rcases lookupOid old k with _ | o <;> simp

theorem foldKeys_lookup_keep (old : List (OidKey × Nat)) {k : OidKey}
    {o : Nat} (hk : lookupOid old k = some o) :
    ∀ (ks : List OidKey) (acc : Nat × List (OidKey × Nat)),
      (lookupOid acc.2 k = some o ∨ k ∈ ks) →
      lookupOid (ks.foldl (stepKey old) acc).2 k = some o := by
  intro ks
  induction ks with
  | nil =>
    intro acc h
    rcases h with h | h
    · exact h
    · simp at h
  | cons k' ks ih =>
    intro acc h
    rw [List.foldl_cons]
    by_cases hkk : k' = k
    · subst hkk
      refine ih (stepKey old acc k') (Or.inl ?_)
      unfold stepKey
      rw [hk]
      exact lookupOid_insert_self acc.2 k' o
    · have hpres : lookupOid (stepKey old acc k').2 k = lookupOid acc.2 k := by
        unfold stepKey
        rcases lookupOid old k' with _ | v <;>
          exact lookupOid_insert_other _ _ (fun hc => hkk hc.symm)
      refine ih (stepKey old acc k') ?_
      rcases h with h | h
      · exact Or.inl (hpres.trans h)
      · rcases List.mem_cons.mp h with h | h
        · exact absurd h.symm hkk
        · exact Or.inr h

theorem foldKeys_lookup_absent (old : List (OidKey × Nat)) {k : OidKey} :
    ∀ (ks : List OidKey) (acc : Nat × List (OidKey × Nat)), k ∉ ks →
      lookupOid (ks.foldl (stepKey old) acc).2 k = lookupOid acc.2 k := by
  intro ks
  induction ks with
  | nil => intro acc _; rfl
  | cons k' ks ih =>
    intro acc h
    have hne : k ≠ k' := fun hc => h (by simp [hc])
    rw [List.foldl_cons, ih (stepKey old acc k') (fun hc => h (by simp [hc]))]
    unfold stepKey
    rcases lookupOid old k' with _ | v <;>
      exact lookupOid_insert_other _ _ hne

theorem foldKeys_fresh (old : List (OidKey × Nat)) {k : OidKey}
    (hk : lookupOid old k = none) :
    ∀ (ks : List OidKey) (acc : Nat × List (OidKey × Nat)) (c0 : Nat),
      c0 ≤ acc.1 →
      (k ∈ ks ∨ ∃ o, lookupOid acc.2 k = some o ∧ c0 ≤ o ∧ o < acc.1) →
      ∃ o, lookupOid (ks.foldl (stepKeyNW old) acc).2 k = some o ∧
        c0 ≤ o ∧ o < (ks.foldl (stepKeyNW old) acc).1 := by
  intro ks
  induction ks with
  | nil =>
    intro acc c0 hc h
    rcases h with h | h
    · simp at h
    · exact h
  | cons k' ks ih =>
    intro acc c0 hc h
    rw [List.foldl_cons]
    have hcount : acc.1 ≤ (stepKeyNW old acc k').1 := by
      unfold stepKeyNW
      rcases lookupOid old k' with _ | v <;> simp
    by_cases hkk : k' = k
    · subst hkk
      refine ih (stepKeyNW old acc k') c0 (le_trans hc hcount) (Or.inr ?_)
      refine ⟨acc.1, ?_, hc, ?_⟩
      · unfold stepKeyNW
        rw [hk]
        exact lookupOid_insert_self acc.2 k' acc.1
      · unfold stepKeyNW
        rw [hk]
        simp
    · have hpres : lookupOid (stepKeyNW old acc k').2 k = lookupOid acc.2 k := by
        unfold stepKeyNW
        rcases lookupOid old k' with _ | v <;>
          exact lookupOid_insert_other _ _ (fun hc => hkk hc.symm)
      refine ih (stepKeyNW old acc k') c0 (le_trans hc hcount) ?_
      rcases h with h | h
      · rcases List.mem_cons.mp h with h | h
        · exact absurd h.symm hkk
        · exact Or.inl h
      · obtain ⟨o, ho, hc0, hlt⟩ := h
        exact Or.inr ⟨o, hpres.trans ho, hc0, lt_of_lt_of_le hlt hcount⟩

/-- The invariant carried through one scan's fold: counter above the
start value, all swap values below the counter, swap values pairwise
distinct across keys, and every value below the start counter copied
from the old cache. -/
def foldInv (old : List (OidKey × Nat)) (c0 : Nat)
    (acc : Nat × List (OidKey × Nat)) : Prop :=
  c0 ≤ acc.1 ∧ (∀ p ∈ acc.2, p.2 < acc.1) ∧
  (∀ p ∈ acc.2, ∀ q ∈ acc.2, p.2 = q.2 → p.1 = q.1) ∧
  (∀ p ∈ acc.2, p.2 < c0 → lookupOid old p.1 = some p.2)

theorem stepKeyNW_inv (old : List (OidKey × Nat)) (c0 : Nat)
    (hold : ∀ p ∈ old, p.2 < c0)
    (holdinj : ∀ p ∈ old, ∀ q ∈ old, p.2 = q.2 → p.1 = q.1)
    (acc : Nat × List (OidKey × Nat)) (k : OidKey)
    (h : foldInv old c0 acc) : foldInv old c0 (stepKeyNW old acc k) := by
  obtain ⟨hc, hlt, hinj, hsrc⟩ := h
  unfold stepKeyNW
  rcases ho : lookupOid old k with _ | o
  · refine ⟨le_trans hc (by simp), ?_, ?_, ?_⟩
    · intro p hp
      rcases mem_insertOid hp with rfl | ⟨hp, _⟩
      · simp
      · exact lt_trans (hlt p hp) (by simp)
    · intro p hp q hq hpq
      rcases mem_insertOid hp with rfl | ⟨hp, hpk⟩ <;>
        rcases mem_insertOid hq with rfl | ⟨hq, hqk⟩
      · rfl
      · have := hlt q hq
        simp only at hpq
        omega
      · have := hlt p hp
        simp only at hpq
        omega
      · exact hinj p hp q hq hpq
    · intro p hp hpc
      rcases mem_insertOid hp with rfl | ⟨hp, _⟩
      · simp only at hpc
        omega
      · exact hsrc p hp hpc
  · have hoc : o < c0 := hold (k, o) (lookupOid_mem ho)
    refine ⟨hc, ?_, ?_, ?_⟩
    · intro p hp
      rcases mem_insertOid hp with rfl | ⟨hp, _⟩
      · exact lt_of_lt_of_le hoc hc
      · exact hlt p hp
    · intro p hp q hq hpq
      rcases mem_insertOid hp with rfl | ⟨hp, hpk⟩ <;>
        rcases mem_insertOid hq with rfl | ⟨hq, hqk⟩
      · rfl
      · simp only at hpq ⊢
        by_cases hqc : q.2 < c0
        · have hqo := lookupOid_mem (hsrc q hq hqc)
          have hko := lookupOid_mem ho
          have hkeys := holdinj (q.1, q.2) hqo (k, o) hko (by simp [hpq])
          simp only at hkeys
          exact hkeys.symm
        · omega
      · simp only at hpq ⊢
        by_cases hpc : p.2 < c0
        · have hpo := lookupOid_mem (hsrc p hp hpc)
          have hko := lookupOid_mem ho
          have hkeys := holdinj (p.1, p.2) hpo (k, o) hko (by simp [hpq])
          simpa using hkeys
        · omega
      · exact hinj p hp q hq hpq
    · intro p hp hpc
      rcases mem_insertOid hp with rfl | ⟨hp, _⟩
      · exact ho
      · exact hsrc p hp hpc

theorem foldKeys_inv (old : List (OidKey × Nat)) (c0 : Nat)
    (hold : ∀ p ∈ old, p.2 < c0)
    (holdinj : ∀ p ∈ old, ∀ q ∈ old, p.2 = q.2 → p.1 = q.1) :
    ∀ (ks : List OidKey) (acc : Nat × List (OidKey × Nat)),
      foldInv old c0 acc → foldInv old c0 (ks.foldl (stepKeyNW old) acc) := by
  intro ks
  induction ks with
  | nil => intro acc h; exact h
  | cons k ks ih =>
    intro acc h
    exact ih (stepKeyNW old acc k) (stepKeyNW_inv old c0 hold holdinj acc k h)

theorem scanOidNW_inv {st : OidState} (h : OidInv st) (tree : CatalogTree) :
    OidInv (scanOidNW st tree) ∧ st.counter ≤ (scanOidNW st tree).counter := by
  obtain ⟨hfloor, hlt, hinj⟩ := h
  have hfold := foldKeys_inv st.cache st.counter hlt hinj (keysOf tree)
    (st.counter, []) ⟨Nat.le_refl _, by simp, by simp, by simp⟩
  obtain ⟨hc, hlt', hinj', _⟩ := hfold
  exact ⟨⟨le_trans hfloor hc, hlt', hinj'⟩, hc⟩

theorem lookupOid_filter_pos (c : List (OidKey × Nat)) (f : OidKey → Bool)
    (k : OidKey) (hk : f k = true) :
    lookupOid (c.filter (fun p => f p.1)) k = lookupOid c k := by
  induction c with
  | nil => rfl
  | cons p ps ih =>
    by_cases hp : p.1 = k
    · have hfp : f p.1 = true := by rw [hp]; exact hk
      rw [List.filter_cons_of_pos (by simpa using hfp)]
      simp only [lookupOid]
      rw [List.find?_cons_of_pos _ (by simp [hp]),
        List.find?_cons_of_pos _ (by simp [hp])]
    · by_cases hf : f p.1 = true
      · rw [List.filter_cons_of_pos (by simpa using hf)]
        simp only [lookupOid]
        rw [List.find?_cons_of_neg _ (by simp [hp]),
          List.find?_cons_of_neg _ (by simp [hp])]
        exact ih
      · rw [List.filter_cons_of_neg (by simpa using hf)]
        simp only [lookupOid]
        rw [List.find?_cons_of_neg _ (by simp [hp])]
        exact ih

theorem lookupOid_filter_neg (c : List (OidKey × Nat)) (f : OidKey → Bool)
    (k : OidKey) (hk : f k = false) :
    lookupOid (c.filter (fun p => f p.1)) k = none := by
  induction c with
  | nil => rfl
  | cons p ps ih =>
    by_cases hf : f p.1 = true
    · rw [List.filter_cons_of_pos (by simpa using hf)]
      have hp : ¬ p.1 = k := by
        intro hc
        rw [hc, hk] at hf
        exact absurd hf (by simp)
      simp only [lookupOid]
      rw [List.find?_cons_of_neg _ (by simp [hp])]
      exact ih
    · rw [List.filter_cons_of_neg (by simpa using hf)]
      exact ih

theorem extendCache_absent (k : OidKey) :
    ∀ (ps base : List (OidKey × Nat)), (∀ p ∈ ps, p.1 ≠ k) →
      lookupOid (extendCache base ps) k = lookupOid base k := by
  intro ps
  induction ps with
  | nil => intro base _; rfl
  | cons p ps ih =>
    intro base h
    simp only [extendCache, List.foldl_cons]
    have htail := ih (insertOid base p.1 p.2)
      (fun q hq => h q (by simp [hq]))
    simp only [extendCache] at htail
    rw [htail]
    exact lookupOid_insert_other base p.2
      (fun hc => h p (List.mem_cons_self _ _) hc.symm)

theorem insertOid_keys_nodup {c : List (OidKey × Nat)}
    (h : (c.map Prod.fst).Nodup) (k : OidKey) (v : Nat) :
    ((insertOid c k v).map Prod.fst).Nodup := by
  rw [insertOid, List.map_cons, List.nodup_cons]
  constructor
  · intro hmem
    rw [List.mem_map] at hmem
    obtain ⟨p, hp, hpk⟩ := hmem
    rw [List.mem_filter] at hp
    have h2 : ¬ p.1 = k := by simpa using hp.2
    exact h2 hpk
  · exact h.sublist ((List.filter_sublist c).map Prod.fst)

theorem foldKeys_keys_nodup (old : List (OidKey × Nat)) :
    ∀ (ks : List OidKey) (acc : Nat × List (OidKey × Nat)),
      (acc.2.map Prod.fst).Nodup →
      (((ks.foldl (stepKey old) acc).2).map Prod.fst).Nodup := by
  intro ks
  induction ks with
  | nil => intro acc h; exact h
  | cons k ks ih =>
    intro acc h
    rw [List.foldl_cons]
    refine ih (stepKey old acc k) ?_
    unfold stepKey
    rcases lookupOid old k with _ | v
    · exact insertOid_keys_nodup h k acc.1
    · exact insertOid_keys_nodup h k v

theorem extendCache_hit (k : OidKey) (o : Nat) :
    ∀ (ps base : List (OidKey × Nat)),
      (ps.map Prod.fst).Nodup → (k, o) ∈ ps →
      lookupOid (extendCache base ps) k = some o := by
  intro ps
  induction ps with
  | nil => intro base _ h; simp at h
  | cons p ps ih =>
    intro base hnd hmem
    simp only [List.map_cons, List.nodup_cons] at hnd
    rcases List.mem_cons.mp hmem with heq | hmem2
    · subst heq
      have hknot : ∀ q ∈ ps, q.1 ≠ k := by
        intro q hq hc
        apply hnd.1
        have hqm : q.1 ∈ ps.map Prod.fst := List.mem_map_of_mem Prod.fst hq
        rw [hc] at hqm
        exact hqm
      have habs := extendCache_absent k ps
        (insertOid base (k, o).1 (k, o).2) hknot
      exact habs.trans (lookupOid_insert_self base k o)
    · exact ih (insertOid base p.1 p.2) hnd.2 hmem2

theorem mem_stepKey_snd (old : List (OidKey × Nat))
    (acc : Nat × List (OidKey × Nat)) (k : OidKey) {p : OidKey × Nat}
    (h : p ∈ (stepKey old acc k).2) : p.1 = k ∨ p ∈ acc.2 := by
  unfold stepKey at h
  cases hlo : lookupOid old k with
  | none =>
    rw [hlo] at h
    rcases mem_insertOid h with rfl | ⟨hm, _⟩
    · exact Or.inl rfl
    · exact Or.inr hm
  | some v =>
    rw [hlo] at h
    rcases mem_insertOid h with rfl | ⟨hm, _⟩
    · exact Or.inl rfl
    · exact Or.inr hm

theorem foldKeys_key_closure (old : List (OidKey × Nat))
    (P : OidKey → Prop) :
    ∀ (ks : List OidKey) (acc : Nat × List (OidKey × Nat)),
      (∀ k ∈ ks, P k) → (∀ p ∈ acc.2, P p.1) →
      ∀ p ∈ (ks.foldl (stepKey old) acc).2, P p.1 := by
  intro ks
  induction ks with
  | nil => intro acc _ hacc p hp; exact hacc p hp
  | cons k ks ih =>
    intro acc hks hacc p hp
    rw [List.foldl_cons] at hp
    refine ih (stepKey old acc k) (fun k2 hk2 => hks k2 (by simp [hk2]))
      ?_ p hp
    intro q hq
    rcases mem_stepKey_snd old acc k hq with h1 | h2
    · rw [h1]
      exact hks k (by simp)
    · exact hacc q h2

theorem mem_schemaKeysOf {k : OidKey} {tree : CatalogTree}
    (h : k ∈ schemaKeysOf tree) : ∃ c s, k = OidKey.sch c s := by
  simp only [schemaKeysOf, List.mem_flatMap, List.mem_map] at h
  obtain ⟨ct, _, st, _, rfl⟩ := h
  exact ⟨ct.1, st.1, rfl⟩

theorem mem_catalogKeysOf {k : OidKey} {tree : CatalogTree}
    (h : k ∈ catalogKeysOf tree) : ∃ c, k = OidKey.cat c := by
  simp only [catalogKeysOf, List.mem_append, List.mem_map] at h
  rcases h with ⟨ct, _, rfl⟩ | h2
  · exact ⟨ct.1, rfl⟩
  · split_ifs at h2
    · simp at h2
    · simp only [List.mem_singleton] at h2
      exact ⟨"postgres", h2⟩

theorem retainExtend_keep (st : OidState) (visited : List OidKey)
    (keep : List (OidKey × Nat) → OidKey → Bool) {k : OidKey} {o : Nat}
    (hk : k ∈ visited) (ho : lookupOid st.cache k = some o) :
    lookupOid (retainExtend st visited keep).cache k = some o := by
  have hfold : lookupOid
      ((visited.foldl (stepKey st.cache) (st.counter, [])).2) k = some o :=
    foldKeys_lookup_keep st.cache ho visited (st.counter, []) (Or.inr hk)
  have hnd := foldKeys_keys_nodup st.cache visited (st.counter, [])
    (by simp)
  exact extendCache_hit k o _ _ hnd (lookupOid_mem hfold)

theorem retainExtend_pass (st : OidState) (visited : List OidKey)
    (keep : List (OidKey × Nat) → OidKey → Bool) {k : OidKey}
    (hkeep : keep ((visited.foldl (stepKey st.cache)
      (st.counter, [])).2) k = true)
    (hnone : ∀ p ∈ (visited.foldl (stepKey st.cache)
      (st.counter, [])).2, p.1 ≠ k) :
    lookupOid (retainExtend st visited keep).cache k =
      lookupOid st.cache k := by
  have h1 := extendCache_absent k
    ((visited.foldl (stepKey st.cache) (st.counter, [])).2)
    (st.cache.filter (fun p =>
      keep ((visited.foldl (stepKey st.cache) (st.counter, [])).2) p.1))
    hnone
  have h2 := lookupOid_filter_pos st.cache
    (keep ((visited.foldl (stepKey st.cache) (st.counter, [])).2)) k hkeep
  exact h1.trans h2

theorem retainExtend_drop (st : OidState) (visited : List OidKey)
    (keep : List (OidKey × Nat) → OidKey → Bool) {k : OidKey}
    (hkeep : keep ((visited.foldl (stepKey st.cache)
      (st.counter, [])).2) k = false)
    (hnone : ∀ p ∈ (visited.foldl (stepKey st.cache)
      (st.counter, [])).2, p.1 ≠ k) :
    lookupOid (retainExtend st visited keep).cache k = none := by
  have h1 := extendCache_absent k
    ((visited.foldl (stepKey st.cache) (st.counter, [])).2)
    (st.cache.filter (fun p =>
      keep ((visited.foldl (stepKey st.cache) (st.counter, [])).2) p.1))
    hnone
  have h2 := lookupOid_filter_neg st.cache
    (keep ((visited.foldl (stepKey st.cache) (st.counter, [])).2)) k hkeep
  exact h1.trans h2

theorem nsFold_keys_ne_cat (st : OidState) (tree : CatalogTree)
    (c : String) :
    ∀ p ∈ ((schemaKeysOf tree).foldl (stepKey st.cache)
      (st.counter, [])).2, p.1 ≠ OidKey.cat c := by
  intro p hp
  refine foldKeys_key_closure st.cache (fun k2 => k2 ≠ OidKey.cat c)
    (schemaKeysOf tree) (st.counter, []) ?_ (by simp) p hp
  intro k2 hk2
  obtain ⟨a, b, rfl⟩ := mem_schemaKeysOf hk2
  simp

theorem dbFold_keys_ne_sch (st : OidState) (tree : CatalogTree)
    (c s : String) :
    ∀ p ∈ ((catalogKeysOf tree).foldl (stepKey st.cache)
      (st.counter, [])).2, p.1 ≠ OidKey.sch c s := by
  intro p hp
  refine foldKeys_key_closure st.cache (fun k2 => k2 ≠ OidKey.sch c s)
    (catalogKeysOf tree) (st.counter, []) ?_ (by simp) p hp
  intro k2 hk2
  obtain ⟨a, rfl⟩ := mem_catalogKeysOf hk2
  simp

def tree1 : CatalogTree := [("datafusion", [("public", ["t"])])]

def tree2 : CatalogTree := [("datafusion", [("public", ["t", "u"])])]

def tree3 : CatalogTree := [("other", [("s", ["v"])])]

/-- C6 counterexample: after a pg_class scan caches catalog
"datafusion" under OID 16384, a pg_namespace scan against an engine
state from which that catalog has disappeared still retains the key —
its retain predicate keeps every Catalog key — so "disappeared keys
are dropped" fails for that dynamic-catalog scan. -/
theorem oidCache_c6_counterexample :
    OidKey.cat "datafusion" ∉ keysOf tree3 ∧
    lookupOid (scanNamespace (scanOid initOidState tree1) tree3).cache
      (OidKey.cat "datafusion") = some 16384 := by
  decide

/-- Claim C6 (amended): (1) the initial state has counter 16384 and
satisfies the invariant; (2)-(6) for the pg_class rebuild-and-swap
scan, whose u32 counter wraps at 2^32, and under the no-wrap bound
counter + number-of-visited-keys < 2^32 where counter arithmetic is
involved: the scan preserves the invariant and never decreases the
counter, surviving keys keep their OID, disappeared keys are dropped,
new keys draw fresh OIDs at or above the pre-scan counter, and across
any no-wrap scan sequence a continuously-live key keeps its OID and no
other key ever receives it; (7)-(8) the pg_namespace retain/extend
scan keeps a surviving schema key's OID and passes every Catalog key
through unchanged — disappeared Catalog keys are not dropped; (9)-(10)
the pg_database retain/extend scan keeps a surviving catalog key's OID
and drops Schema keys of disappeared catalogs. -/
theorem oidCache_c6_amended :
    (OidInv initOidState ∧ initOidState.counter = 16384) ∧
    (∀ st tree, OidInv st →
      st.counter + (keysOf tree).length < 4294967296 →
      OidInv (scanOid st tree) ∧ st.counter ≤ (scanOid st tree).counter) ∧
    (∀ st tree k o, k ∈ keysOf tree → lookupOid st.cache k = some o →
      lookupOid (scanOid st tree).cache k = some o) ∧
    (∀ st tree k, k ∉ keysOf tree →
      lookupOid (scanOid st tree).cache k = none) ∧
    (∀ st tree k, OidInv st →
      st.counter + (keysOf tree).length < 4294967296 →
      k ∈ keysOf tree → lookupOid st.cache k = none →
      ∃ o, lookupOid (scanOid st tree).cache k = some o ∧
        st.counter ≤ o ∧ o < (scanOid st tree).counter) ∧
    (∀ (st : OidState) (trees : List CatalogTree) (k : OidKey) (o : Nat),
      OidInv st → scansNoWrap st trees = true →
      (∀ t ∈ trees, k ∈ keysOf t) → lookupOid st.cache k = some o →
      lookupOid (trees.foldl scanOid st).cache k = some o ∧
      OidInv (trees.foldl scanOid st) ∧
      (∀ k' o', lookupOid (trees.foldl scanOid st).cache k' = some o' →
        o' = o → k' = k)) ∧
    (∀ st tree k o, k ∈ schemaKeysOf tree →
      lookupOid st.cache k = some o →
      lookupOid (scanNamespace st tree).cache k = some o) ∧
    (∀ st tree c, lookupOid (scanNamespace st tree).cache (OidKey.cat c) =
      lookupOid st.cache (OidKey.cat c)) ∧
    (∀ st tree k o, k ∈ catalogKeysOf tree →
      lookupOid st.cache k = some o →
      lookupOid (scanDatabase st tree).cache k = some o) ∧
    (∀ st tree c s, OidKey.cat c ∉ catalogKeysOf tree →
      lookupOid (scanDatabase st tree).cache (OidKey.sch c s) = none) := by
  have keep : ∀ st tree k o, k ∈ keysOf tree →
      lookupOid st.cache k = some o →
      lookupOid (scanOid st tree).cache k = some o := by
    intro st tree k o hk ho
    exact foldKeys_lookup_keep st.cache ho (keysOf tree)
      (st.counter, []) (Or.inr hk)
  refine ⟨⟨⟨by simp [initOidState], by simp [initOidState],
    by simp [initOidState]⟩, rfl⟩, ?_, keep, ?_, ?_, ?_, ?_, ?_, ?_, ?_⟩
  · intro st tree hinv hb
    rw [scanOid_eq_NW st tree hb]
    exact scanOidNW_inv hinv tree
  · intro st tree k hk
    exact foldKeys_lookup_absent st.cache (keysOf tree)
      (st.counter, []) hk
  · intro st tree k hinv hb hk ho
    rw [scanOid_eq_NW st tree hb]
    exact foldKeys_fresh st.cache ho (keysOf tree) (st.counter, [])
      st.counter (Nat.le_refl _) (Or.inl hk)
  · intro st trees k o hinv hw hlive ho
    induction trees generalizing st with
    | nil =>
      simp only [List.foldl_nil]
      refine ⟨ho, hinv, ?_⟩
      intro k' o' ho' hoo
      subst hoo
      exact hinv.2.2 (k', o') (lookupOid_mem ho') (k, o')
        (lookupOid_mem ho) rfl
    | cons t ts ih =>
      simp only [scansNoWrap, Bool.and_eq_true, decide_eq_true_eq] at hw
      obtain ⟨hb, hw2⟩ := hw
      have hk : k ∈ keysOf t := hlive t (by simp)
      have hkeep := keep st t k o hk ho
      have hinv2 : OidInv (scanOid st t) := by
        rw [scanOid_eq_NW st t hb]
        exact (scanOidNW_inv hinv t).1
      exact ih (scanOid st t) hinv2 hw2
        (fun t2 ht2 => hlive t2 (by simp [ht2])) hkeep
  · intro st tree k o hk ho
    exact retainExtend_keep st (schemaKeysOf tree) nsRetain hk ho
  · intro st tree c
    exact retainExtend_pass st (schemaKeysOf tree) nsRetain rfl
      (nsFold_keys_ne_cat st tree c)
  · intro st tree k o hk ho
    exact retainExtend_keep st (catalogKeysOf tree) dbRetain hk ho
  · intro st tree c s hnot
    refine retainExtend_drop st (catalogKeysOf tree) dbRetain ?_
      (dbFold_keys_ne_sch st tree c s)
    show (lookupOid ((catalogKeysOf tree).foldl (stepKey st.cache)
      (st.counter, [])).2 (OidKey.cat c)).isSome = false
    rw [foldKeys_lookup_absent st.cache (catalogKeysOf tree)
      (st.counter, []) hnot]
    rfl

/-- Witness for C6: after registering catalog/schema/table the table
keeps OID 16386 across a rescan with a new table added, with the
no-wrap bound discharged concretely. -/
theorem oidCache_c6_witness :
    OidInv (scanOid initOidState tree1) ∧
    lookupOid (scanOid (scanOid initOidState tree1) tree2).cache
      (OidKey.tbl "datafusion" "public" "t") = some 16386 :=
  ⟨(oidCache_c6_amended.2.1 initOidState tree1 oidCache_c6_amended.1.1
      (by decide)).1,
    oidCache_c6_amended.2.2.1 (scanOid initOidState tree1) tree2
      (OidKey.tbl "datafusion" "public" "t") 16386 (by decide) (by decide)⟩

/-! ## Token-level blacklist replacement
(datafusion-pg-catalog/src/sql/parser.rs, maybe_replace_tokens)

The source works on the token stream with whitespace and semicolons
filtered out (marks are computed on the filtered stream and the output
re-interleaves the filtered-out tokens, which the claim quantifies
away with "modulo whitespace and semicolons").  The model works on the
filtered stream directly, for one `(pattern, replacement)` blacklist
entry — the per-entry scan of the source's entry loop. -/

/-- sqlparser tokens, abstracted: a placeholder or any other token. -/
inductive Tok where
  | placeholder (s : String)
  | plain (s : String)
deriving DecidableEq, Repr, Inhabited

/-- Pattern-token match: `Token::Placeholder(_)` matches any single
token; every other pattern token must be equal. -/
def tokMatch (p t : Tok) : Bool :=
  match p with
  | Tok.placeholder _ => true
  | _ => p = t

/-- Whether the pattern matches at the front of the stream (the inner
`for i in 0..pattern.len()` check). -/
def matchesPre : List Tok → List Tok → Bool
  | [], _ => true
  | _ :: _, [] => false
  | p :: ps, x :: xs => tokMatch p x && matchesPre ps xs

/-- The phase-1 scan loop: greedy left-to-right match starts; on a
match, resume past it (`start += pattern.len()`), else advance by one;
break when fewer than `pattern.len()` tokens remain. -/
def findStartsAux (pattern xs : List Tok) : Nat → Nat → List Nat
  | 0, _ => []
  | fuel + 1, s =>
    if s < xs.length then
      if s + pattern.length > xs.length then []
      else if matchesPre pattern (xs.drop s) then
        s :: findStartsAux pattern xs fuel (s + pattern.length)
      else findStartsAux pattern xs fuel (s + 1)
    else []

/-- `to_replace[i]`: index `i` lies in some matched span. -/
def toReplace (plen : Nat) (starts : List Nat) (i : Nat) : Bool :=
  starts.any (fun s => s ≤ i ∧ i < s + plen)

/-- The phase-2 output loop: at a span start emit the replacement and
skip the span; inside a span without a recorded replacement keep the
token (the source's defensive branch); otherwise copy. -/
def buildAux (replacement : List Tok) (plen : Nat) (starts : List Nat)
    (xs : List Tok) : Nat → Nat → List Tok
  | 0, _ => []
  | fuel + 1, i =>
    if i < xs.length then
      if toReplace plen starts i then
        if starts.contains i then
          replacement ++ buildAux replacement plen starts xs fuel (i + plen)
        else (xs.drop i).take 1 ++
          buildAux replacement plen starts xs fuel (i + 1)
      else (xs.drop i).take 1 ++
        buildAux replacement plen starts xs fuel (i + 1)
    else []

/-- `maybe_replace_tokens` for a one-entry blacklist, on the filtered
stream (empty patterns are skipped by the source's `continue`). -/
def maybeReplaceTokens1 (pattern replacement xs : List Tok) : List Tok :=
  if pattern.isEmpty then xs
  else buildAux replacement pattern.length
    (findStartsAux pattern xs (xs.length + 1) 0) xs (xs.length + 1) 0

/-- The claim side: scan left-to-right, replace each maximal match by
the replacement and resume past it (no overlap), copy everything
else. -/
def greedyReplace (pattern replacement : List Tok) : List Tok → List Tok
  | [] => []
  | x :: xs =>
    if pattern ≠ [] ∧ matchesPre pattern (x :: xs) = true then
      replacement ++
        greedyReplace pattern replacement (xs.drop (pattern.length - 1))
    else x :: greedyReplace pattern replacement xs
termination_by l => l.length
decreasing_by
  · simp only [List.length_cons, List.length_drop]
    omega
  · simp

theorem matchesPre_length {p ys : List Tok} (h : matchesPre p ys = true) :
    p.length ≤ ys.length := by
  induction p generalizing ys with
  | nil => simp
  | cons a p ih =>
    rcases ys with _ | ⟨y, ys⟩
    · simp [matchesPre] at h
    · simp only [matchesPre, Bool.and_eq_true] at h
      have := ih h.2
      simp only [List.length_cons]
      omega

theorem greedyReplace_short {p : List Tok} (r : List Tok) :
    ∀ ys : List Tok, ys.length < p.length →
      greedyReplace p r ys = ys := by
  intro ys
  induction ys with
  | nil => intro _; rw [greedyReplace]
  | cons y ys ih =>
    intro h
    rw [greedyReplace]
    rw [if_neg]
    · rw [ih (by simp at h; omega)]
    · rintro ⟨-, hm⟩
      have := matchesPre_length hm
      omega

theorem greedyReplace_nilpat (r : List Tok) :
    ∀ ys : List Tok, greedyReplace [] r ys = ys := by
  intro ys
  induction ys with
  | nil => rw [greedyReplace]
  | cons y ys ih =>
    rw [greedyReplace, if_neg (by simp), ih]

theorem findStartsAux_lb (p xs : List Tok) :
    ∀ (fuel s : Nat), ∀ x ∈ findStartsAux p xs fuel s, s ≤ x := by
  intro fuel
  induction fuel with
  | zero => intro s x hx; simp [findStartsAux] at hx
  | succ fuel ih =>
    intro s x hx
    rw [findStartsAux] at hx
    split_ifs at hx with h1 h2 h3
    · simp at hx
    · rcases List.mem_cons.mp hx with rfl | hx
      · exact Nat.le_refl _
      · have := ih (s + p.length) x hx
        omega
    · have := ih (s + 1) x hx
      omega
    · simp at hx

theorem drop_head_append (xs : List Tok) (i : Nat) (h : i < xs.length) :
    (xs.drop i).take 1 ++ xs.drop (i + 1) = xs.drop i := by
  rw [List.drop_eq_getElem_cons h]
  simp

theorem buildAux_nil (r : List Tok) (plen : Nat) (xs : List Tok) :
    ∀ (fuel i : Nat), xs.length - i < fuel →
      buildAux r plen [] xs fuel i = xs.drop i := by
  intro fuel
  induction fuel with
  | zero => intro i h; omega
  | succ fuel ih =>
    intro i h
    rw [buildAux]
    by_cases hl : i < xs.length
    · rw [if_pos hl]
      rw [if_neg (by simp [toReplace])]
      rw [ih (i + 1) (by omega)]
      exact drop_head_append xs i hl
    · rw [if_neg hl]
      rw [List.drop_eq_nil_of_le (by omega)]

theorem buildAux_skip (r : List Tok) (plen : Nat) (hplen : 1 ≤ plen)
    (xs : List Tok) (s : Nat) (rest : List Nat) :
    ∀ (fuel i : Nat), s + plen ≤ i →
      buildAux r plen (s :: rest) xs fuel i =
        buildAux r plen rest xs fuel i := by
  intro fuel
  induction fuel with
  | zero => intro i _; rfl
  | succ fuel ih =>
    intro i hi
    rw [buildAux, buildAux]
    have h1 : toReplace plen (s :: rest) i = toReplace plen rest i := by
      simp only [toReplace, List.any_cons]
      have : ¬(s ≤ i ∧ i < s + plen) := by omega
      simp [this]
    have h2 : (s :: rest).contains i = rest.contains i := by
      rw [List.contains_cons]
      have hne : (i == s) = false := by
        simp only [beq_eq_false_iff_ne, ne_eq]
        omega
      rw [hne, Bool.false_or]
    rw [h1, h2]
    by_cases hl : i < xs.length
    · rw [if_pos hl, if_pos hl]
      by_cases ht : toReplace plen rest i = true
      · rw [if_pos ht, if_pos ht]
        by_cases hc : rest.contains i = true
        · rw [if_pos hc, if_pos hc, ih (i + plen) (by omega)]
        · rw [if_neg hc, if_neg hc, ih (i + 1) (by omega)]
      · rw [if_neg ht, if_neg ht, ih (i + 1) (by omega)]
    · rw [if_neg hl, if_neg hl]

theorem toReplace_head (plen : Nat) (hplen : 1 ≤ plen) (S : List Nat)
    (i : Nat) : toReplace plen (i :: S) i = true := by
  simp only [toReplace, List.any_cons, Bool.or_eq_true, decide_eq_true_eq]
  left
  omega

theorem contains_head (S : List Nat) (i : Nat) :
    (i :: S).contains i = true := by
  rw [List.contains_cons]
  simp

theorem build_eq_greedy (p r : List Tok) (hp : p ≠ []) (xs : List Tok) :
    ∀ (fuel i : Nat), xs.length - i < fuel →
      buildAux r p.length (findStartsAux p xs fuel i) xs fuel i =
        greedyReplace p r (xs.drop i) := by
  have hplen : 1 ≤ p.length := by
    cases p with
    | nil => exact absurd rfl hp
    | cons a t => simp
  intro fuel
  induction fuel with
  | zero => intro i h; omega
  | succ fuel ih =>
    intro i h
    by_cases hl : i < xs.length
    · by_cases hlen : i + p.length > xs.length
      · rw [findStartsAux, if_pos hl, if_pos hlen]
        rw [buildAux_nil r p.length xs (fuel + 1) i (by omega)]
        rw [greedyReplace_short r (xs.drop i)
          (by rw [List.length_drop]; omega)]
      · by_cases hm : matchesPre p (xs.drop i) = true
        · rw [findStartsAux, if_pos hl, if_neg hlen, if_pos hm]
          rw [buildAux, if_pos hl,
            if_pos (toReplace_head p.length hplen _ i),
            if_pos (contains_head _ i)]
          rw [buildAux_skip r p.length hplen xs i _ fuel (i + p.length)
            (by omega)]
          rw [ih (i + p.length) (by omega)]
          have hcons := List.drop_eq_getElem_cons hl
          rw [hcons, greedyReplace, if_pos ⟨hp, hcons ▸ hm⟩]
          rw [List.drop_drop]
          have harg : i + 1 + (p.length - 1) = i + p.length := by omega
          rw [harg]
        · rw [findStartsAux, if_pos hl, if_neg hlen, if_neg hm]
          rw [buildAux, if_pos hl]
          have hfr : ¬ toReplace p.length
              (findStartsAux p xs fuel (i + 1)) i = true := by
            intro hcon
            simp only [toReplace, List.any_eq_true, decide_eq_true_eq] at hcon
            obtain ⟨s, hs, hle, _⟩ := hcon
            have := findStartsAux_lb p xs fuel (i + 1) s hs
            omega
          rw [if_neg hfr]
          rw [ih (i + 1) (by omega)]
          have hcons := List.drop_eq_getElem_cons hl
          rw [hcons, greedyReplace]
          rw [if_neg (by
            rintro ⟨-, hmm⟩
            exact hm (by rw [hcons]; exact hmm))]
          rfl
    · rw [findStartsAux, if_neg hl]
      rw [buildAux, if_neg hl]
      rw [List.drop_eq_nil_of_le (by omega), greedyReplace]

/-- C3: On the filtered token stream and for each blacklist entry, the
two-phase mark-and-rebuild algorithm of maybe_replace_tokens equals the
claimed left-to-right greedy non-overlapping replacement; in
particular, an input that is exactly a blacklisted pattern rewrites to
exactly the declared replacement stream. -/
theorem tokenReplace_c3 :
    (∀ (pattern replacement xs : List Tok),
      maybeReplaceTokens1 pattern replacement xs =
        greedyReplace pattern replacement xs) ∧
    (∀ (pattern replacement xs : List Tok),
      pattern ≠ [] → matchesPre pattern xs = true →
      xs.length = pattern.length →
      maybeReplaceTokens1 pattern replacement xs = replacement) := by
  have hmain : ∀ (p r xs : List Tok),
      maybeReplaceTokens1 p r xs = greedyReplace p r xs := by
    intro p r xs
    by_cases hp : p = []
    · subst hp
      simp [maybeReplaceTokens1, greedyReplace_nilpat]
    · rw [maybeReplaceTokens1,
        if_neg (by simpa [List.isEmpty_iff] using hp)]
      have := build_eq_greedy p r hp xs (xs.length + 1) 0 (by omega)
      simpa using this
  refine ⟨hmain, ?_⟩
  intro p r xs hp hm hlen
  rw [hmain]
  rcases xs with _ | ⟨x, t⟩
  · rcases p with _ | ⟨a, q⟩
    · exact absurd rfl hp
    · simp [matchesPre] at hm
  · rw [greedyReplace, if_pos ⟨hp, hm⟩]
    have h1 : 1 ≤ p.length := by
      cases p with
      | nil => exact absurd rfl hp
      | cons a q => simp
    have hd : t.drop (p.length - 1) = [] := by
      apply List.drop_eq_nil_of_le
      simp only [List.length_cons] at hlen
      omega
    rw [hd, greedyReplace]
    simp

theorem tokenReplace_c3_witness :
    maybeReplaceTokens1
      [Tok.plain "version", Tok.plain "(", Tok.plain ")"]
      [Tok.plain "'17.0'"]
      [Tok.plain "version", Tok.plain "(", Tok.plain ")"] =
      [Tok.plain "'17.0'"] :=
  tokenReplace_c3.2
    [Tok.plain "version", Tok.plain "(", Tok.plain ")"]
    [Tok.plain "'17.0'"]
    [Tok.plain "version", Tok.plain "(", Tok.plain ")"]
    (by decide) (by decide) (by decide)

/-! ## Rewrite-rule pipeline (parser.rs `rewrite`, handlers.rs rule list)

`PostgresCompatibilityParser::rewrite` folds the statement through the
rule list in order (`for rule in &self.rewrite_rules { s = rule.rewrite(s) }`);
the list order in `DfSessionService::new` puts
`AliasDuplicatedProjectionRewrite` before `RemoveUnsupportedTypes`.
The rule bodies themselves live outside this tree, so they are
modelled from their spec one-liners over a projection-only AST. -/

inductive SqlType where
  | regclass
  | regproc
  | intT
deriving DecidableEq, Repr

inductive Expr where
  | col (name : String)
  | lit (n : Nat)
  | cast (e : Expr) (t : SqlType)
deriving DecidableEq, Repr

/-- A projection item: bare expression or aliased expression (aliases
modelled as numeric tags, only their distinctness matters). -/
inductive ProjItem where
  | unnamed (e : Expr)
  | aliased (e : Expr) (a : Nat)
deriving DecidableEq, Repr

structure Stmt where
  projection : List ProjItem
deriving DecidableEq, Repr

/-- Modelled from the spec: types the engine cannot plan
(`regclass`, `regproc`, `regnamespace`, …). -/
def unsupportedType : SqlType → Bool
  | SqlType.regclass => true
  | SqlType.regproc => true
  | SqlType.intT => false

/-- Modelled from the spec: drop casts to unsupported types. -/
def stripCastExpr : Expr → Expr
  | Expr.cast e t =>
    if unsupportedType t then stripCastExpr e
    else Expr.cast (stripCastExpr e) t
  | Expr.col n => Expr.col n
  | Expr.lit n => Expr.lit n

def exprOf : ProjItem → Expr
  | ProjItem.unnamed e => e
  | ProjItem.aliased e _ => e

/-- Modelled from the spec: RemoveUnsupportedTypes — "drop casts to
types the engine cannot plan (regclass, regproc, regnamespace, …)". -/
def removeUnsupportedTypes (s : Stmt) : Stmt :=
  ⟨s.projection.map (fun it =>
    match it with
    | ProjItem.unnamed e => ProjItem.unnamed (stripCastExpr e)
    | ProjItem.aliased e a => ProjItem.aliased (stripCastExpr e) a)⟩

/-- Modelled from the spec: AliasDuplicatedProjection — "ensure
duplicate projection expressions carry distinct aliases": a bare item
whose expression already occurred earlier in the projection gets an
alias derived from its position. -/
def aliasDuplicatedProjection (s : Stmt) : Stmt :=
  ⟨s.projection.enum.map (fun p =>
    match p.2 with
    | ProjItem.unnamed e =>
      if (s.projection.take p.1).any (fun it2 => exprOf it2 = e) then
        ProjItem.aliased e p.1
      else ProjItem.unnamed e
    | it => it)⟩

/-- The fold of parser.rs lines 389-395: apply each rule in order. -/
def rewriteFold (rules : List (Stmt → Stmt)) (s : Stmt) : Stmt :=
  rules.foldl (fun s r => r s) s

/-- The modelled pipeline fragment, in the source's order
(handlers.rs: AliasDuplicatedProjectionRewrite before
RemoveUnsupportedTypes). -/
def rewriteRules : List (Stmt → Stmt) :=
  [aliasDuplicatedProjection, removeUnsupportedTypes]

def rewriteStmt (s : Stmt) : Stmt :=
  rewriteFold rewriteRules s

/-- C5 counterexample: for SELECT a::regclass, a::regproc the first
pass leaves the (distinct) casts unaliased and then strips both casts,
producing duplicate bare projection items; the second pass's alias
rule then fires, so rewrite (rewrite s) differs from rewrite s. -/
theorem rewrite_c5_counterexample :
    rewriteStmt (rewriteStmt
      ⟨[ProjItem.unnamed (Expr.cast (Expr.col "a") SqlType.regclass),
        ProjItem.unnamed (Expr.cast (Expr.col "a") SqlType.regproc)]⟩) ≠
    rewriteStmt
      ⟨[ProjItem.unnamed (Expr.cast (Expr.col "a") SqlType.regclass),
        ProjItem.unnamed (Expr.cast (Expr.col "a") SqlType.regproc)]⟩ := by
  decide

/-- C5 amended: the rewrite fold is idempotent exactly on statements
whose once-rewritten form is a fixpoint of every individual rule; for
such statements rewrite (rewrite s) = rewrite s. -/
theorem rewrite_c5_amended (rules : List (Stmt → Stmt)) (s : Stmt)
    (h : ∀ r ∈ rules, r (rewriteFold rules s) = rewriteFold rules s) :
    rewriteFold rules (rewriteFold rules s) = rewriteFold rules s := by
  have gen : ∀ (rs : List (Stmt → Stmt)) (t : Stmt),
      (∀ r ∈ rs, r t = t) → rewriteFold rs t = t := by
    intro rs
    induction rs with
    | nil => intro t _; rfl
    | cons r rs ih =>
      intro t ht
      simp only [rewriteFold, List.foldl_cons]
      rw [ht r (List.mem_cons_self _ _)]
      exact ih t (fun r2 h2 => ht r2 (List.mem_cons_of_mem _ h2))
  exact gen rules (rewriteFold rules s) h

theorem rewrite_c5_witness :
    rewriteFold rewriteRules (rewriteFold rewriteRules
      ⟨[ProjItem.unnamed (Expr.col "a")]⟩) =
    rewriteFold rewriteRules ⟨[ProjItem.unnamed (Expr.col "a")]⟩ :=
  rewrite_c5_amended rewriteRules ⟨[ProjItem.unnamed (Expr.col "a")]⟩ (by
    intro r hr
    rcases List.mem_cons.mp hr with rfl | hr2
    · decide
    rcases List.mem_cons.mp hr2 with rfl | hr3
    · decide
    simp at hr3)

end DfPg
